import Mathlib

/-!
Verification of the swinger swagger-merge library (src/index.ts, embedded in
src/README.md).  Strings are modelled as `List Char`; JSON values as a mutual
inductive family `JValue`/`JArr`/`JObj`; JavaScript objects as association
lists in insertion order (JS object keys are unique, which appears as `Nodup`
hypotheses where relevant); JS numbers as arbitrary-precision integers.
Fallible code — the mergers' `throw`s and the `TypeError` raised by
`updateReferences` on a matching non-string `$ref` value — returns
`Except MergeError`.  The JS primitives the source leans on are embedded
explicitly: `deepEqual` is Node's legacy loose `assert.deepEqual` (with `==`
on primitives, including `ToNumber` coercion of strings), and
`replaceFirstL` is `String.prototype.replace` for a string pattern,
including the `GetSubstitution` dollar escapes in the replacement.
-/

deriving instance DecidableEq for Except

set_option synthInstance.maxHeartbeats 1000000

namespace Swinger

abbrev Str := List Char

/-! ### JSON values

`JValue.obj` uses a bespoke list type so that all recursion over values is
structural (and therefore computable by the kernel). -/

mutual
inductive JValue where
  | null
  | bool (b : Bool)
  | num (n : Int)
  | str (s : Str)
  | arr (xs : JArr)
  | obj (fs : JObj)
inductive JArr where
  | nil
  | cons (v : JValue) (tl : JArr)
inductive JObj where
  | nil
  | cons (k : Str) (v : JValue) (tl : JObj)
end

mutual
def JValue.beq : JValue → JValue → Bool
  | .null, .null => true
  | .bool a, .bool b => a == b
  | .num a, .num b => a == b
  | .str a, .str b => a == b
  | .arr xs, .arr ys => JArr.beq xs ys
  | .obj fs, .obj gs => JObj.beq fs gs
  | _, _ => false
def JArr.beq : JArr → JArr → Bool
  | .nil, .nil => true
  | .cons x xs, .cons y ys => JValue.beq x y && JArr.beq xs ys
  | _, _ => false
def JObj.beq : JObj → JObj → Bool
  | .nil, .nil => true
  | .cons k v fs, .cons l w gs => k == l && JValue.beq v w && JObj.beq fs gs
  | _, _ => false
end

mutual
theorem JValue.beq_iff_eq_val : ∀ a b, JValue.beq a b = true ↔ a = b
  | .null, b => by cases b <;> simp [JValue.beq]
  | .bool x, b => by cases b <;> simp [JValue.beq]
  | .num x, b => by cases b <;> simp [JValue.beq]
  | .str x, b => by cases b <;> simp [JValue.beq]
  | .arr xs, b => by
      cases b <;> simp [JValue.beq]
      exact JArr.beq_iff_eq_arr xs _
  | .obj fs, b => by
      cases b <;> simp [JValue.beq]
      exact JObj.beq_iff_eq_obj fs _
theorem JArr.beq_iff_eq_arr : ∀ a b, JArr.beq a b = true ↔ a = b
  | .nil, b => by cases b <;> simp [JArr.beq]
  | .cons x xs, b => by
      cases b <;> simp [JArr.beq]
      rw [JValue.beq_iff_eq_val, JArr.beq_iff_eq_arr]
theorem JObj.beq_iff_eq_obj : ∀ a b, JObj.beq a b = true ↔ a = b
  | .nil, b => by cases b <;> simp [JObj.beq]
  | .cons k v fs, b => by
      cases b <;> simp [JObj.beq]
      rw [JValue.beq_iff_eq_val, JObj.beq_iff_eq_obj]
      simp [and_assoc]
end

instance : DecidableEq JValue := fun a b => decidable_of_iff _ (JValue.beq_iff_eq_val a b)
instance : DecidableEq JArr := fun a b => decidable_of_iff _ (JArr.beq_iff_eq_arr a b)
instance : DecidableEq JObj := fun a b => decidable_of_iff _ (JObj.beq_iff_eq_obj a b)

/-- Build a `JArr` from an ordinary list. -/
def JArr.ofList : List JValue → JArr
  | [] => .nil
  | x :: t => .cons x (JArr.ofList t)

/-- Build a `JObj` from an ordinary association list. -/
def JObj.ofList : List (Str × JValue) → JObj
  | [] => .nil
  | e :: t => .cons e.1 e.2 (JObj.ofList t)

/-- The entries of a `JObj` as an ordinary association list. -/
def JObj.entries : JObj → List (Str × JValue)
  | .nil => []
  | .cons k v t => (k, v) :: JObj.entries t

/-- `obj.hasOwnProperty(k)` for a nested object. -/
def JObj.hasKey : JObj → Str → Bool
  | .nil, _ => false
  | .cons k' _ t, k => k' == k || JObj.hasKey t k

/-- `obj[k] = v` for a key known to be absent: JS appends the new property in
insertion order. -/
def JObj.append : JObj → Str → JValue → JObj
  | .nil, k, v => .cons k v .nil
  | .cons k' v' t, k, v => .cons k' v' (JObj.append t k v)

/-! ### Top-level string-keyed maps (JS objects in insertion order) -/

/-- `m[k]` on a JS object modelled as an association list: the binding of the
first (and, for `Nodup` keys, only) occurrence of `k`. -/
def getVal : List (Str × JValue) → Str → Option JValue
  | [], _ => none
  | (k', v) :: t, k => if k' = k then some v else getVal t k

/-- The keys of an association list, in order. -/
def keys (m : List (Str × JValue)) : List Str := m.map (fun p => p.1)

abbrev RenameTable := List (Str × Str)

/-- `references[k]` on the rename table. -/
def lookupRef : RenameTable → Str → Option Str
  | [], _ => none
  | (k', v) :: t, k => if k' = k then some v else lookupRef t k

/-! ### JS primitive semantics used by the source

`assert.deepEqual` (src/README.md lines 169 and 268) is Node's legacy loose
deep equality: primitives are compared with JS `==`, objects and arrays by
their own enumerable keys with the values compared recursively.  JS `==`
between a number (or boolean, which is first converted to a number) and a
string converts the string with `ToNumber`; the model keeps JS numbers as
arbitrary-precision integers (as everywhere else in this file) and evaluates
`ToNumber` of a string exactly, as a decimal `mant * 10 ^ exp` (`none`
standing for `NaN` and the infinities, which compare equal to no
integer). -/

/-- `c` is an ASCII decimal digit. -/
def isDigitCh (c : Char) : Bool := '0' ≤ c && c ≤ '9'

/-- The numeric value of a decimal digit. -/
def digitVal (c : Char) : Nat := c.toNat - '0'.toNat

/-- The natural number denoted by a digit string (most significant first). -/
def natOfDigits (l : Str) : Nat := l.foldl (fun a c => 10 * a + digitVal c) 0

/-- The decimal digits of a natural number. -/
def natToStr (n : Nat) : Str := Nat.toDigits 10 n

/-- The decimal form of an integer (JS `String(n)` for an integral number). -/
def intToStr : Int → Str
  | .ofNat n => natToStr n
  | .negSucc n => '-' :: natToStr (n + 1)

/-- The `WhiteSpace` and `LineTerminator` characters trimmed by `ToNumber`
(tab, LF, VT, FF, CR, space, NBSP, ZWNBSP, the Unicode space separators,
LS and PS). -/
def jsWS (c : Char) : Bool :=
  c == Char.ofNat 9 || c == Char.ofNat 10 || c == Char.ofNat 11 ||
  c == Char.ofNat 12 || c == Char.ofNat 13 || c == ' ' ||
  c == Char.ofNat 0xA0 || c == Char.ofNat 0x1680 ||
  (0x2000 ≤ c.toNat && c.toNat ≤ 0x200A) ||
  c == Char.ofNat 0x2028 || c == Char.ofNat 0x2029 ||
  c == Char.ofNat 0x202F || c == Char.ofNat 0x205F ||
  c == Char.ofNat 0x3000 || c == Char.ofNat 0xFEFF

/-- An exact decimal value `mant * 10 ^ exp`: the result of `ToNumber` on a
numeric string, kept symbolically so that comparison with the model's
integral JS numbers is exact. -/
structure DecVal where
  mant : Int
  exp : Int
deriving DecidableEq

/-- `d` denotes exactly the integer `n`. -/
def DecVal.eqInt (d : DecVal) (n : Int) : Bool :=
  match d.exp with
  | .ofNat k => d.mant * (10 : Int) ^ k == n
  | .negSucc k => n * (10 : Int) ^ (k + 1) == d.mant

/-- The exponent part of a `StrDecimalLiteral` after the `e`/`E`: an
optionally signed nonempty digit string. -/
def parseExp : Str → Option Int
  | [] => none
  | c :: r =>
      if c = '+' then
        if r ≠ [] ∧ r.all isDigitCh then some (natOfDigits r) else none
      else if c = '-' then
        if r ≠ [] ∧ r.all isDigitCh then some (-(natOfDigits r : Int)) else none
      else if (c :: r).all isDigitCh then some (natOfDigits (c :: r)) else none

/-- An unsigned `StrDecimalLiteral` without `Infinity`:
`digits [. digits] [exp]` or `. digits [exp]`; the value is the integer made
of all mantissa digits times ten to the exponent minus the number of
fraction digits. -/
def parseUnsigned (u : Str) : Option DecVal :=
  let ip := u.takeWhile isDigitCh
  let r1 := u.dropWhile isDigitCh
  match r1 with
  | [] => if ip = [] then none else some ⟨(natOfDigits ip : Int), 0⟩
  | c :: r2 =>
      if c = '.' then
        let fp := r2.takeWhile isDigitCh
        let r3 := r2.dropWhile isDigitCh
        if ip = [] ∧ fp = [] then none
        else
          let mant : Int := (natOfDigits (ip ++ fp) : Int)
          match r3 with
          | [] => some ⟨mant, -(fp.length : Int)⟩
          | d :: r4 =>
              if d = 'e' ∨ d = 'E' then
                (parseExp r4).map (fun e => ⟨mant, e - (fp.length : Int)⟩)
              else none
      else if ip = [] then none
      else if c = 'e' ∨ c = 'E' then
        (parseExp r2).map (fun e => ⟨(natOfDigits ip : Int), e⟩)
      else none

/-- A nonempty digit string in base `b` (digits recognized by `dig?`,
valued by `val`). -/
def parseRadix (dig? : Char → Bool) (val : Char → Nat) (b : Nat) (l : Str) :
    Option DecVal :=
  if l ≠ [] ∧ l.all dig? then
    some ⟨((l.foldl (fun a c => b * a + val c) 0 : Nat) : Int), 0⟩
  else none

/-- `c` is a hexadecimal digit. -/
def isHexCh (c : Char) : Bool :=
  isDigitCh c || ('a' ≤ c && c ≤ 'f') || ('A' ≤ c && c ≤ 'F')

/-- The numeric value of a hexadecimal digit. -/
def hexVal (c : Char) : Nat :=
  if isDigitCh c then digitVal c
  else if 'a' ≤ c && c ≤ 'f' then c.toNat - 'a'.toNat + 10
  else c.toNat - 'A'.toNat + 10

/-- The two-character radix markers `0x`, `0b`, `0o` (and their upper-case
forms) of a `NonDecimalIntegerLiteral`. -/
def pfx2 (l : Str) (a b : Char) : Bool :=
  match l with
  | x :: y :: _ => x == a && y == b
  | _ => false

/-- JS `ToNumber` of a string (ES2018 §7.1.3.1): trim, empty means `0`,
then a hex/binary/octal integer (unsigned) or an optionally signed decimal
literal or `Infinity`; anything else is `NaN`.  `none` stands for `NaN` and
`±Infinity`, neither of which compares `==`-equal to any integral number of
the model. -/
def strToNum (s : Str) : Option DecVal :=
  let t := ((s.dropWhile jsWS).reverse.dropWhile jsWS).reverse
  if t = [] then some ⟨0, 0⟩
  else if pfx2 t '0' 'x' || pfx2 t '0' 'X' then
    parseRadix isHexCh hexVal 16 (t.drop 2)
  else if pfx2 t '0' 'b' || pfx2 t '0' 'B' then
    parseRadix (fun c => c == '0' || c == '1') digitVal 2 (t.drop 2)
  else if pfx2 t '0' 'o' || pfx2 t '0' 'O' then
    parseRadix (fun c => '0' ≤ c && c ≤ '7') digitVal 8 (t.drop 2)
  else
    match t with
    | c :: r =>
        if c = '-' then
          if r = "Infinity".toList then none
          else (parseUnsigned r).map (fun d => ⟨-d.mant, d.exp⟩)
        else if c = '+' then
          if r = "Infinity".toList then none else parseUnsigned r
        else if t = "Infinity".toList then none
        else parseUnsigned t
    | [] => none

/-- `ToNumber` of a boolean. -/
def boolToNum (b : Bool) : Int := if b then 1 else 0

/-- JS loose equality `==` on the primitive values of the model (`null`,
booleans, numbers, strings): `null` equals only `null` (its only loose peer,
`undefined`, is not a JSON value); a boolean is converted with `ToNumber`;
a number and a string compare by `ToNumber` of the string; same-type
primitives compare by value.  Composite values never reach this comparison
in `deepEqual`. -/
def looseEqPrim : JValue → JValue → Bool
  | .null, .null => true
  | .bool a, .bool b => a == b
  | .bool a, .num n => boolToNum a == n
  | .num n, .bool b => n == boolToNum b
  | .bool a, .str s =>
      match strToNum s with
      | some d => d.eqInt (boolToNum a)
      | none => false
  | .str s, .bool b =>
      match strToNum s with
      | some d => d.eqInt (boolToNum b)
      | none => false
  | .num n, .num m => n == m
  | .num n, .str s =>
      match strToNum s with
      | some d => d.eqInt n
      | none => false
  | .str s, .num n =>
      match strToNum s with
      | some d => d.eqInt n
      | none => false
  | .str s, .str t => s == t
  | _, _ => false

/-- `fields[k]` on a nested object. -/
def JObj.lookup : JObj → Str → Option JValue
  | .nil, _ => none
  | .cons k' v t, k => if k' = k then some v else JObj.lookup t k

/-- The number of entries of a nested object. -/
def JObj.len : JObj → Nat
  | .nil => 0
  | .cons _ _ t => JObj.len t + 1

/-- The length of a nested array. -/
def JArr.len : JArr → Nat
  | .nil => 0
  | .cons _ t => JArr.len t + 1

/-- The element of a nested array at an index. -/
def JArr.get? : JArr → Nat → Option JValue
  | .nil, _ => none
  | .cons v _, 0 => some v
  | .cons _ t, n + 1 => JArr.get? t n

/-- A canonical JS array-index key: a nonempty digit string without a
leading zero (except `"0"` itself), as produced by `Object.keys` on an
array. -/
def canonIndex (k : Str) : Option Nat :=
  if k ≠ [] ∧ k.all isDigitCh ∧ (k.head? = some '0' → k = ['0']) then
    some (natOfDigits k)
  else none

/-- `ys[k]` for a string key against a JS array: only canonical index keys
are own keys of an array. -/
def arrIndex (ys : JArr) (k : Str) : Option JValue :=
  match canonIndex k with
  | some i => JArr.get? ys i
  | none => none

mutual
/-- Node's legacy `assert.deepEqual` on the model's values: primitives are
compared with JS `==` (`looseEqPrim`); two objects, two arrays, or an array
against an object are compared as objects — the own-key sets must coincide
and the values under each key must be loosely deep-equal (an array's own
keys are its decimal indices `"0"`, `"1"`, …); a primitive never equals a
composite.  Keys of objects that come from real JS are pairwise distinct;
on such values the length-plus-lookup test used here coincides with the
sorted-key-array comparison of the original `objEquiv`. -/
def deepEqual : JValue → JValue → Bool
  | .arr xs, .arr ys => deepEqualArr xs ys
  | .arr xs, .obj fb => JArr.len xs == JObj.len fb && deepEqualArrFields xs 0 fb
  | .obj fa, .arr ys => JObj.len fa == JArr.len ys && deepEqualFieldsArr fa ys
  | .obj fa, .obj fb => JObj.len fa == JObj.len fb && deepEqualFields fa fb
  | .arr _, _ => false
  | .obj _, _ => false
  | _, .arr _ => false
  | _, .obj _ => false
  | a, b => looseEqPrim a b
termination_by structural a _ => a
def deepEqualArr : JArr → JArr → Bool
  | .nil, .nil => true
  | .cons v t, .cons w u => deepEqual v w && deepEqualArr t u
  | _, _ => false
termination_by structural a _ => a
def deepEqualFields : JObj → JObj → Bool
  | .nil, _ => true
  | .cons k v t, fb =>
      (match JObj.lookup fb k with
       | some w => deepEqual v w
       | none => false) && deepEqualFields t fb
termination_by structural a _ => a
def deepEqualArrFields : JArr → Nat → JObj → Bool
  | .nil, _, _ => true
  | .cons v t, i, fb =>
      (match JObj.lookup fb (natToStr i) with
       | some w => deepEqual v w
       | none => false) && deepEqualArrFields t (i + 1) fb
termination_by structural a _ _ => a
def deepEqualFieldsArr : JObj → JArr → Bool
  | .nil, _ => true
  | .cons k v t, ys =>
      (match arrIndex ys k with
       | some w => deepEqual v w
       | none => false) && deepEqualFieldsArr t ys
termination_by structural a _ => a
end

mutual
/-- JS `String(v)`: the coercion `RegExp.exec` applies to its argument.
`null`, booleans and numbers print their literal forms, arrays join their
elements with commas, plain objects print `[object Object]`. -/
def jsToString : JValue → Str
  | .null => "null".toList
  | .bool b => if b then "true".toList else "false".toList
  | .num n => intToStr n
  | .str s => s
  | .arr xs => jsJoin xs
  | .obj _ => "[object Object]".toList
/-- `Array.prototype.toString` = `join(",")`: `null` (like `undefined`)
becomes the empty string, every other element is converted with
`String(...)`. -/
def jsJoin : JArr → Str
  | .nil => []
  | .cons v t =>
      (match v with
       | .null => ([] : Str)
       | w => jsToString w) ++
      (match t with
       | .nil => ([] : Str)
       | u => ',' :: jsJoin u)
end

/-! ### The data model (`SwaggerSpec` from src/README.md lines 65-77).

`info` is an object with a `title`; all other optional fields become `Option`
(a missing key = `none`).  `paths` is required by the interface. -/

structure SpecInfo where
  title : Str
deriving DecidableEq

structure SwaggerSpec where
  info : SpecInfo
  swagger : Option Str := none
  openapi : Option Str := none
  securityDefinitions : Option (List (Str × JValue)) := none
  security : Option JValue := none
  basePath : Option Str := none
  paths : List (Str × JValue)
  definitions : Option (List (Str × JValue)) := none
  tags : Option (List Str) := none
deriving DecidableEq

/-- The error classes of src/README.md lines 53-56 plus the plain `Error`
thrown on an empty argument list; each constructor carries the data
interpolated into the corresponding message.  `typeError` is the uncaught
JS `TypeError` raised by `updateReferences` when `.replace` is called on a
non-string `$ref` value (src/README.md line 319). -/
inductive MergeError where
  | emptyInput
  | versionMismatch (title : Str)
  | duplicateSecurityDefinition (name : Str) (title : Str)
  | duplicatePath (path : Str) (title : Str)
  | duplicateDefinition (name : Str) (title : Str)
  | typeError
deriving DecidableEq

/-! ### Reference scanning and rewriting (src/README.md lines 300-330)

The regex `/\#\/definitions\/([^\/]+)/` is modelled by a scanner that slides
over the string one character at a time and, at the first position where the
literal pattern `#/definitions/` is followed by at least one character other
than `/`, captures the maximal run of non-`/` characters after the pattern.
`String.prototype.replace` with a string pattern replaces the first occurrence
of that pattern. -/

/-- `hasPfx p s` decides whether `p` is a prefix of `s`. -/
def hasPfx : Str → Str → Bool
  | [], _ => true
  | _ :: _, [] => false
  | a :: p, b :: s => a == b && hasPfx p s

/-- The literal part of the `definitionMatch` regex. -/
def PAT : Str := "#/definitions/".toList

/-- The key whose values are rewritten. -/
def refKey : Str := "$ref".toList

/-- The key injected by the global-security copy in `mergePaths`. -/
def secKey : Str := "security".toList

/-- `definitionMatch.exec`: the capture of the first match of the regex in the
string, if any. -/
def findRefSeg : Str → Option Str
  | [] => none
  | c :: t =>
      if hasPfx PAT (c :: t) ∧ ((c :: t).drop PAT.length).takeWhile (fun ch => ch ≠ '/') ≠ [] then
        some (((c :: t).drop PAT.length).takeWhile (fun ch => ch ≠ '/'))
      else findRefSeg t

/-- `GetSubstitution` for a string search (ES2018 §21.1.3.14.1): expand the
dollar escapes of the replacement string — `$$` to a dollar sign, `$&` to
the matched text, a dollar followed by a backtick to the part of the subject
before the match, a dollar followed by an apostrophe to the part after it;
any other dollar (including one before a digit, since a string search has no
captures) is literal. -/
def subDollar (matched pre post : Str) : Str → Str
  | [] => []
  | c :: t =>
      if c = '$' then
        match t with
        | [] => [c]
        | d :: u =>
            if d = '$' then '$' :: subDollar matched pre post u
            else if d = '&' then matched ++ subDollar matched pre post u
            else if d = Char.ofNat 96 then pre ++ subDollar matched pre post u
            else if d = Char.ofNat 39 then post ++ subDollar matched pre post u
            else c :: d :: subDollar matched pre post u
      else c :: subDollar matched pre post t

/-- The index of the first occurrence of `pat` in `s`, if any
(`String.prototype.indexOf`). -/
def firstOcc : Str → Str → Option Nat
  | [], pat => if hasPfx pat [] then some 0 else none
  | c :: t, pat =>
      if hasPfx pat (c :: t) then some 0
      else (firstOcc t pat).map (fun n => n + 1)

/-- `s.replace(pat, new)` for a string pattern (ES2018 §21.1.3.14): replace
the first occurrence of `pat` in `s` by the `GetSubstitution` expansion of
`new` (`s` unchanged if `pat` does not occur). -/
def replaceFirstL (s pat new : Str) : Str :=
  match firstOcc s pat with
  | none => s
  | some i =>
      s.take i ++ subDollar pat (s.take i) (s.drop (i + pat.length)) new
        ++ s.drop (i + pat.length)

/-- The `$ref`-string rewrite of `updateReferences`: if the regex matches and
the captured segment is a key of the rename table, replace the first
occurrence of the captured text; otherwise pass the string through. -/
def rewriteRefStr (s : Str) (references : RenameTable) : Str :=
  match findRefSeg s with
  | some seg =>
      match lookupRef references seg with
      | some new => replaceFirstL s seg new
      | none => s
  | none => s

/-- The value stored back under a `$ref` key (src/README.md lines 316-322):
the regex is executed against the JS string coercion of the value; when it
matches and the captured segment is renamed, `.replace` is called on the
value itself — a `TypeError` for any non-string value; otherwise the value
is copied through unchanged, without recursing into it. -/
def rewriteRefVal (v : JValue) (references : RenameTable) : Except MergeError JValue :=
  match findRefSeg (jsToString v) with
  | none => .ok v
  | some seg =>
      match lookupRef references seg with
      | none => .ok v
      | some new =>
          match v with
          | .str s => .ok (.str (replaceFirstL s seg new))
          | _ => .error .typeError

mutual
/-- `updateReferences` (src/README.md lines 300-330) on a nested value:
identity on an empty rename table, element-wise on arrays, key-by-key on
objects with the `$ref` special case, identity on scalars; the first
`TypeError` raised by a `$ref` rewrite aborts the traversal. -/
def updateReferences (target : JValue) (references : RenameTable) :
    Except MergeError JValue :=
  if references.isEmpty then .ok target
  else match target with
    | .arr xs =>
        match updateReferencesArr xs references with
        | .ok ys => .ok (.arr ys)
        | .error e => .error e
    | .obj fs =>
        match updateReferencesFields fs references with
        | .ok gs => .ok (.obj gs)
        | .error e => .error e
    | scalar => .ok scalar
def updateReferencesArr : JArr → RenameTable → Except MergeError JArr
  | .nil, _ => .ok .nil
  | .cons v tl, references =>
      match updateReferences v references with
      | .error e => .error e
      | .ok w =>
          match updateReferencesArr tl references with
          | .error e => .error e
          | .ok ws => .ok (.cons w ws)
def updateReferencesFields : JObj → RenameTable → Except MergeError JObj
  | .nil, _ => .ok .nil
  | .cons k v tl, references =>
      if k = refKey then
        match rewriteRefVal v references with
        | .error e => .error e
        | .ok w =>
            match updateReferencesFields tl references with
            | .error e => .error e
            | .ok ws => .ok (.cons k w ws)
      else
        match updateReferences v references with
        | .error e => .error e
        | .ok w =>
            match updateReferencesFields tl references with
            | .error e => .error e
            | .ok ws => .ok (.cons k w ws)
end

/-- `updateReferences` applied to a top-level string-keyed map (the merged
definitions map in `merge`): same key-by-key rule as the object case. -/
def updateReferencesObj (m : List (Str × JValue)) (references : RenameTable) :
    Except MergeError (List (Str × JValue)) :=
  if references.isEmpty then .ok m
  else go m
where go : List (Str × JValue) → Except MergeError (List (Str × JValue))
  | [] => .ok []
  | (k, v) :: t =>
      match (if k = refKey then rewriteRefVal v references
             else updateReferences v references) with
      | .error e => .error e
      | .ok w =>
          match go t with
          | .error e => .error e
          | .ok ws => .ok ((k, w) :: ws)

/-- The traversal of one optional map-valued field of the spec object. -/
def updOptMap (o : Option (List (Str × JValue))) (references : RenameTable) :
    Except MergeError (Option (List (Str × JValue))) :=
  match o with
  | none => .ok none
  | some m => (updateReferencesObj m references).map some

/-- The traversal of the optional `security` field of the spec object. -/
def updOptVal (o : Option JValue) (references : RenameTable) :
    Except MergeError (Option JValue) :=
  match o with
  | none => .ok none
  | some v => (updateReferences v references).map some

/-- `updateReferences` applied to a whole spec object (`merge` rewrites the
current spec before merging paths).  The generic traversal leaves the
string-valued fields `info`, `swagger`, `openapi`, `basePath` and `tags`
unchanged (strings are scalars under keys other than `$ref`, and never
raise), and rebuilds the map- and value-shaped fields key-by-key,
propagating the first `TypeError`. -/
def updateReferencesDoc (s : SwaggerSpec) (references : RenameTable) :
    Except MergeError SwaggerSpec :=
  if references.isEmpty then .ok s
  else
    match updOptMap s.securityDefinitions references with
    | .error e => .error e
    | .ok sd =>
      match updOptVal s.security references with
      | .error e => .error e
      | .ok sec =>
        match updateReferencesObj s.paths references with
        | .error e => .error e
        | .ok ps =>
          match updOptMap s.definitions references with
          | .error e => .error e
          | .ok ds =>
              .ok { s with securityDefinitions := sd, security := sec,
                           paths := ps, definitions := ds }

/-! ### The mergers (src/README.md lines 161-290) -/

/-- `[...new Set(l)]`: deduplicate keeping the first occurrence of each
element, preserving order. -/
def dedupKeepFirst (l : List Str) : List Str := go l []
where go : List Str → List Str → List Str
  | [], _ => []
  | x :: t, seen => if x ∈ seen then go t seen else x :: go t (x :: seen)

/-- `mergeTags` (src/README.md lines 191-199). -/
def mergeTags (left right : SwaggerSpec) : List Str :=
  dedupKeepFirst ((left.tags.getD []) ++ (right.tags.getD []))

/-- `mergeSecurityDefinitions` (src/README.md lines 161-182).  The result map
starts as `left.securityDefinitions || {}` (aliased in JS, so the membership
test sees earlier insertions); the duplicate test is Node's legacy
`assert.deepEqual`, i.e. `deepEqual` above. -/
def mergeSecurityDefinitions (left right : SwaggerSpec) :
    Except MergeError (List (Str × JValue)) :=
  match right.securityDefinitions with
  | none => .ok (left.securityDefinitions.getD [])
  | some rs => go (left.securityDefinitions.getD []) rs
where go (acc : List (Str × JValue)) :
    List (Str × JValue) → Except MergeError (List (Str × JValue))
  | [] => .ok acc
  | (n, v) :: t =>
      match getVal acc n with
      | some existing =>
          if deepEqual existing v then go acc t
          else .error (.duplicateSecurityDefinition n right.info.title)
      | none => go (acc ++ [(n, v)]) t

/-- `mergeDefinitions` (src/README.md lines 255-290): start from
`left.definitions || {}`; for each right-hand definition keep the original
name, unless it collides with an entry that is not loosely deep-equal
(`assert.deepEqual`, i.e. `deepEqual` above), in which case rename to
`` `${right.info.title}_${name}` `` (raising `DuplicateDefinitionError` when
that name is taken too) and record the rename; a loosely deep-equal
collision is skipped. -/
def mergeDefinitions (left right : SwaggerSpec) :
    Except MergeError ((List (Str × JValue)) × RenameTable) :=
  match right.definitions with
  | none => .ok (left.definitions.getD [], [])
  | some rdefs => go (left.definitions.getD []) [] rdefs
where go (defs : List (Str × JValue)) (references : RenameTable) :
    List (Str × JValue) → Except MergeError ((List (Str × JValue)) × RenameTable)
  | [] => .ok (defs, references)
  | (name, v) :: t =>
      match getVal defs name with
      | some existing =>
          if deepEqual existing v then go defs references t
          else
            let finalName := right.info.title ++ '_' :: name
            if (getVal defs finalName).isSome then
              .error (.duplicateDefinition finalName right.info.title)
            else go (defs ++ [(finalName, v)]) (references ++ [(name, finalName)]) t
      | none => go (defs ++ [(name, v)]) references t

/-- The recognized HTTP methods of the `switch` in `mergePaths`. -/
def httpMethods : List Str :=
  ["get".toList, "post".toList, "put".toList, "delete".toList,
   "options".toList, "head".toList, "patch".toList]

/-- The global-security copy of `mergePaths` (src/README.md lines 222-240) on
one path item: every method-keyed operation object that lacks a `security`
key receives the global one; other keys and non-object operations are left
untouched. -/
def injectSecurity (sec : JValue) : JObj → JObj
  | .nil => .nil
  | .cons m op tl =>
      let op' :=
        if m ∈ httpMethods then
          match op with
          | .obj fields =>
              if fields.hasKey secKey then JValue.obj fields
              else .obj (fields.append secKey sec)
          | other => other
        else op
      .cons m op' (injectSecurity sec tl)

/-- The value actually stored under a final path by `mergePaths`: the
right-hand operation object after the global-security copy (a no-op when the
right spec declares no global security or the item is not an object). -/
def applyGlobalSecurity (right : SwaggerSpec) (item : JValue) : JValue :=
  match right.security with
  | none => item
  | some sec =>
      match item with
      | .obj methods => .obj (injectSecurity sec methods)
      | other => other

/-- `mergePaths` (src/README.md lines 209-245): the result map starts as
`left.paths` (aliased in JS, so the collision test sees earlier insertions);
each right-hand template is inserted under `right.basePath || '' + template`,
failing with `DuplicatePathError` on collision. -/
def mergePaths (left right : SwaggerSpec) :
    Except MergeError (List (Str × JValue)) :=
  go left.paths right.paths
where go (acc : List (Str × JValue)) :
    List (Str × JValue) → Except MergeError (List (Str × JValue))
  | [] => .ok acc
  | (path, item) :: t =>
      let finalPath := right.basePath.getD [] ++ path
      if (getVal acc finalPath).isSome then
        .error (.duplicatePath finalPath right.info.title)
      else go (acc ++ [(finalPath, applyGlobalSecurity right item)]) t

/-! ### The merge orchestrator (src/README.md lines 103-152) -/

/-- The two version guards at the top of each fold step. -/
def versionCheck (acc cur : SwaggerSpec) : Option MergeError :=
  if acc.swagger.isSome ∧ (cur.swagger.isNone ∨ acc.swagger ≠ cur.swagger) then
    some (.versionMismatch cur.info.title)
  else if acc.openapi.isSome ∧ (cur.openapi.isNone ∨ acc.openapi ≠ cur.openapi) then
    some (.versionMismatch cur.info.title)
  else none

/-- The tags stage of one fold step: `resultSpec.tags = mergeTags(...)` when
the current spec owns a `tags` key. -/
def stepTags (acc cur : SwaggerSpec) : SwaggerSpec :=
  if cur.tags.isSome then { acc with tags := some (mergeTags acc cur) } else acc

/-- The security-definitions stage of one fold step. -/
def stepSecDefs (acc cur : SwaggerSpec) : Except MergeError SwaggerSpec :=
  if cur.securityDefinitions.isSome then
    (mergeSecurityDefinitions acc cur).map
      (fun sd => { acc with securityDefinitions := some sd })
  else .ok acc

/-- The definitions stage of one fold step: merge, rewrite the merged map
with the produced rename table, and hand the table on for the paths stage. -/
def stepDefs (acc cur : SwaggerSpec) : Except MergeError (SwaggerSpec × RenameTable) :=
  if cur.definitions.isSome then
    match mergeDefinitions acc cur with
    | .error e => .error e
    | .ok md =>
        match updateReferencesObj md.1 md.2 with
        | .error e => .error e
        | .ok ds => .ok ({ acc with definitions := some ds }, md.2)
  else .ok (acc, ([] : RenameTable))

/-- One iteration of the loop in `merge`: version checks, then tags, security
definitions, definitions (with reference rewriting of the merged map and of
the whole current spec) and paths. -/
def mergeStep (acc cur : SwaggerSpec) : Except MergeError SwaggerSpec :=
  match versionCheck acc cur with
  | some e => .error e
  | none =>
    match stepSecDefs (stepTags acc cur) cur with
    | .error e => .error e
    | .ok acc2 =>
      match stepDefs acc2 cur with
      | .error e => .error e
      | .ok (acc3, referenceUpdates) =>
        match updateReferencesDoc cur referenceUpdates with
        | .error e => .error e
        | .ok cur2 =>
          match mergePaths acc3 cur2 with
          | .error e => .error e
          | .ok ps => .ok { acc3 with paths := ps }

/-- The loop of `merge`, folding `mergeStep` from the first spec. -/
def mergeFold (acc : SwaggerSpec) : List SwaggerSpec → Except MergeError SwaggerSpec
  | [] => .ok acc
  | s :: t =>
      match mergeStep acc s with
      | .ok acc' => mergeFold acc' t
      | .error e => .error e

/-- `merge` (src/README.md lines 103-152). -/
def merge : List SwaggerSpec → Except MergeError SwaggerSpec
  | [] => .error .emptyInput
  | s0 :: rest => mergeFold s0 rest

/-! ### Observations used to state the claims -/

/-- The first path segment of a local definitions pointer: the maximal run of
non-`/` characters after the 14-character prefix `#/definitions/`. -/
def firstSeg (s : Str) : Str := (s.drop PAT.length).takeWhile (fun ch => ch ≠ '/')

/-- A string of the form `#/definitions/<segment>` (with a non-empty first
segment), as in claim C1's conclusion. -/
def ofForm (s : Str) : Prop := hasPfx PAT s = true ∧ firstSeg s ≠ []

instance (s : Str) : Decidable (ofForm s) := by unfold ofForm; infer_instance

/-- The string content of a value, when it is a string. -/
def strVal : JValue → List Str
  | .str s => [s]
  | _ => []

/-- The direct pointer contribution of one object entry: the value of an
entry whose key is literally `$ref` and whose value is a string. -/
def refContrib (k : Str) (v : JValue) : List Str :=
  if k = refKey then strVal v else []

mutual
/-- All `$ref` pointer strings occurring in a nested value: the string values
of keys literally named `$ref`, collected recursively. -/
def refsIn : JValue → List Str
  | .arr xs => refsInArr xs
  | .obj fs => refsInObj fs
  | _ => []
def refsInArr : JArr → List Str
  | .nil => []
  | .cons v t => refsIn v ++ refsInArr t
def refsInObj : JObj → List Str
  | .nil => []
  | .cons k v t => refContrib k v ++ refsIn v ++ refsInObj t
end

/-- All `$ref` pointer strings occurring in the values of a top-level map
(the keys of `paths` / `definitions` / `securityDefinitions` are names, not
pointers). -/
def refsInMap : List (Str × JValue) → List Str
  | [] => []
  | (_, v) :: t => refsIn v ++ refsInMap t

/-- All `$ref` pointer strings occurring anywhere in a spec document. -/
def specRefs (s : SwaggerSpec) : List Str :=
  refsInMap (s.securityDefinitions.getD [])
    ++ (match s.security with | some v => refsIn v | none => [])
    ++ refsInMap s.paths
    ++ refsInMap (s.definitions.getD [])

/-- The schema names defined by one document. -/
def defNames (s : SwaggerSpec) : List Str := keys (s.definitions.getD [])

/-- The schema names defined by any document of the input list. -/
def allDefNames (specs : List SwaggerSpec) : List Str := specs.flatMap defNames

/-- Well-formedness inherited from JS objects: the keys of the definitions
and paths maps of a document are pairwise distinct. -/
def SpecWF (s : SwaggerSpec) : Prop :=
  (keys (s.definitions.getD [])).Nodup ∧ (keys s.paths).Nodup

instance (s : SwaggerSpec) : Decidable (SpecWF s) := by unfold SpecWF; infer_instance

/-! ### Lemmas about the prefix test -/

theorem hasPfx_iff : ∀ (p s : Str), hasPfx p s = true ↔ ∃ t, s = p ++ t
  | [], s => by simp [hasPfx]
  | a :: p, [] => by simp [hasPfx]
  | a :: p, b :: s => by
      simp only [hasPfx, Bool.and_eq_true, beq_iff_eq, hasPfx_iff p s, List.cons_append]
      constructor
      · rintro ⟨rfl, t, rfl⟩
        exact ⟨t, rfl⟩
      · rintro ⟨t, ht⟩
        rw [List.cons.injEq] at ht
        exact ⟨ht.1.symm, t, ht.2⟩

theorem hasPfx_len (p s : Str) (h : hasPfx p s = true) : p.length ≤ s.length := by
  obtain ⟨t, rfl⟩ := (hasPfx_iff p s).1 h
  simp

theorem patSlash (a q : Str) (hq : q ≠ []) (h : a ++ q = PAT) : '/' ∈ q := by
  have h0 := congrArg List.getLast? h
  rw [List.getLast?_append] at h0
  have hp : PAT.getLast? = some '/' := by decide
  rw [hp] at h0
  cases hgl : q.getLast? with
  | none =>
      rw [List.getLast?_eq_none_iff] at hgl
      exact absurd hgl hq
  | some c =>
      rw [hgl] at h0
      simp only [Option.or_some] at h0
      have hc : c = '/' := Option.some.inj h0
      rw [hc] at hgl
      exact List.mem_of_getLast?_eq_some hgl

theorem patMem (a q : Str) (h : a ++ q = PAT) : ∀ c ∈ q, c ∈ PAT := by
  intro c hc
  rw [← h]
  exact List.mem_append_right a hc

/-- A nonempty suffix of the pattern cannot be a prefix of `new ++ r` when
`new` avoids `/` and contains `_`. -/
theorem helperNoPat (q new r : Str) (hq : q ≠ []) (hsuf : ∃ a, a ++ q = PAT)
    (hslash : '/' ∉ new) (hund : '_' ∈ new) : hasPfx q (new ++ r) = false := by
  obtain ⟨a, ha⟩ := hsuf
  by_contra hcon
  rw [Bool.not_eq_false] at hcon
  obtain ⟨t, ht⟩ := (hasPfx_iff _ _).1 hcon
  rcases Nat.le_total new.length q.length with hle | hle
  · have hnq : new = q.take new.length := by
      have h1 : (new ++ r).take new.length = new := List.take_left' rfl
      rw [ht, List.take_append_of_le_length hle] at h1
      exact h1.symm
    have hmem : '_' ∈ q := List.take_subset _ _ (hnq ▸ hund)
    have : '_' ∈ PAT := patMem a q ha '_' hmem
    exact absurd this (by decide)
  · have hqn : q = new.take q.length := by
      have h1 : (q ++ t).take q.length = q := List.take_left' rfl
      rw [← ht, List.take_append_of_le_length hle] at h1
      exact h1.symm
    have hsl : '/' ∈ new := List.take_subset _ _ (hqn ▸ patSlash a q hq ha)
    exact absurd hsl hslash

/-! ### Lemmas about `replaceFirstL` and `findRefSeg` -/

theorem firstOcc_spec : ∀ (s pat : Str) (i : Nat),
    firstOcc s pat = some i → hasPfx pat (s.drop i) = true
  | [], pat, i, h => by
      rw [firstOcc] at h
      by_cases h0 : hasPfx pat [] = true
      · rw [if_pos h0] at h
        cases h
        exact h0
      · rw [if_neg h0] at h
        exact absurd h (by simp)
  | c :: t, pat, i, h => by
      rw [firstOcc] at h
      by_cases h0 : hasPfx pat (c :: t) = true
      · rw [if_pos h0] at h
        cases h
        exact h0
      · rw [if_neg h0] at h
        cases hfo : firstOcc t pat with
        | none => rw [hfo] at h; exact absurd h (by simp)
        | some i2 =>
            rw [hfo] at h
            have h2 : i2 + 1 = i := by simpa using h
            rw [← h2, List.drop_succ_cons]
            exact firstOcc_spec t pat i2 hfo

theorem firstOcc_of_hasPfx : ∀ (s pat : Str) (j : Nat),
    hasPfx pat (s.drop j) = true → ∃ i, i ≤ j ∧ firstOcc s pat = some i
  | [], pat, j, h => by
      rw [List.drop_nil] at h
      exact ⟨0, Nat.zero_le j, by rw [firstOcc, if_pos h]⟩
  | c :: t, pat, j, h => by
      by_cases h0 : hasPfx pat (c :: t) = true
      · exact ⟨0, Nat.zero_le j, by rw [firstOcc, if_pos h0]⟩
      · cases j with
        | zero =>
            rw [List.drop_zero] at h
            exact absurd h h0
        | succ j2 =>
            rw [List.drop_succ_cons] at h
            obtain ⟨i2, hle, hfo⟩ := firstOcc_of_hasPfx t pat j2 h
            exact ⟨i2 + 1, Nat.succ_le_succ hle,
              by rw [firstOcc, if_neg h0, hfo]; rfl⟩

theorem replFirst_decomp (s pat new : Str) (j : Nat) (_hpat : pat ≠ [])
    (h : hasPfx pat (s.drop j) = true) :
    ∃ i, i ≤ j ∧ hasPfx pat (s.drop i) = true ∧
      replaceFirstL s pat new =
        s.take i ++ subDollar pat (s.take i) (s.drop (i + pat.length)) new
          ++ s.drop (i + pat.length) := by
  obtain ⟨i, hle, hfo⟩ := firstOcc_of_hasPfx s pat j h
  exact ⟨i, hle, firstOcc_spec s pat i hfo, by rw [replaceFirstL, hfo]⟩

/-- On a replacement string without a dollar sign, `GetSubstitution` is the
identity. -/
theorem subDollar_no_dollar (matched pre post : Str) :
    ∀ r : Str, '$' ∉ r → subDollar matched pre post r = r
  | [], _ => rfl
  | c :: t, h => by
      have hc : ¬ c = '$' := fun hceq => h (hceq ▸ List.mem_cons_self _ _)
      have ht := subDollar_no_dollar matched pre post t
        (fun hm => h (List.mem_cons_of_mem _ hm))
      rw [subDollar.eq_def]
      simp only [if_neg hc, ht]

theorem occ_lt_length (s seg : Str) (i : Nat) (hne : seg ≠ [])
    (h : hasPfx seg (s.drop i) = true) : i < s.length := by
  by_contra hcon
  push_neg at hcon
  rw [List.drop_eq_nil_of_le hcon] at h
  cases seg with
  | nil => exact hne rfl
  | cons a p => simp [hasPfx] at h

theorem findRefSeg_some : ∀ (s seg : Str), findRefSeg s = some seg →
    seg ≠ [] ∧ (∀ c ∈ seg, ¬ c = '/') ∧
    ∃ p, hasPfx PAT (s.drop p) = true ∧
      seg = ((s.drop p).drop PAT.length).takeWhile (fun ch => ch ≠ '/')
  | [], seg, h => by simp [findRefSeg] at h
  | c :: t, seg, h => by
      rw [findRefSeg] at h
      by_cases hc : hasPfx PAT (c :: t) = true ∧
          ((c :: t).drop PAT.length).takeWhile (fun ch => ch ≠ '/') ≠ []
      · rw [if_pos hc] at h
        have hseg := Option.some.inj h
        refine ⟨hseg ▸ hc.2, ?_, 0, by rw [List.drop_zero]; exact hc.1, by rw [List.drop_zero]; exact hseg.symm⟩
        intro x hx
        have := List.mem_takeWhile_imp (hseg ▸ hx)
        simpa using this
      · rw [if_neg hc] at h
        obtain ⟨h1, h2, p, hp, hsegdef⟩ := findRefSeg_some t seg h
        exact ⟨h1, h2, p + 1, by rw [List.drop_succ_cons]; exact hp,
               by rw [List.drop_succ_cons]; exact hsegdef⟩

theorem findRefSeg_at0 (s : Str) (h1 : hasPfx PAT s = true) (h2 : firstSeg s ≠ []) :
    findRefSeg s = some (firstSeg s) := by
  cases s with
  | nil =>
      have := hasPfx_len PAT [] h1
      simp [PAT] at this
  | cons c t =>
      rw [findRefSeg]
      rw [if_pos ⟨h1, h2⟩]
      rfl

theorem lookupRef_mem : ∀ (tbl : RenameTable) (k v : Str),
    lookupRef tbl k = some v → (k, v) ∈ tbl
  | [], _, _, h => by simp [lookupRef] at h
  | (k', v') :: tl, k, v, h => by
      rw [lookupRef] at h
      by_cases hk : k' = k
      · rw [if_pos hk] at h
        rw [hk, Option.some.inj h]
        exact List.mem_cons_self _ _
      · rw [if_neg hk] at h
        exact List.mem_cons_of_mem _ (lookupRef_mem tl k v h)

theorem takeWhile_append_all (p : Char → Bool) : ∀ (a b : Str), (∀ c ∈ a, p c = true) →
    (∀ c, b.head? = some c → p c = false) → (a ++ b).takeWhile p = a
  | [], b, _, hb => by
      cases b with
      | nil => rfl
      | cons x xs =>
          simp [List.takeWhile_cons, hb x rfl]
  | a :: as, b, ha, hb => by
      simp only [List.cons_append, List.takeWhile_cons, ha a (List.mem_cons_self _ _), if_true]
      rw [takeWhile_append_all p as b (fun c hc => ha c (List.mem_cons_of_mem _ hc)) hb]

theorem dropWhile_head_not (p : Char → Bool) : ∀ (l : Str) (c : Char),
    (l.dropWhile p).head? = some c → p c = false
  | [], c, h => by simp [List.dropWhile] at h
  | x :: xs, c, h => by
      rw [List.dropWhile_cons] at h
      by_cases hx : p x = true
      · rw [if_pos hx] at h
        exact dropWhile_head_not p xs c h
      · rw [if_neg hx] at h
        simp only [List.head?_cons, Option.some.injEq] at h
        rw [← h]
        simpa using hx

/-! ### The key resolution property of the string rewrite -/

/-- The shape of every rename-table entry produced by `mergeDefinitions`: the
value is `title ++ "_" ++ key` for a title that contains no `/`, and the
value contains no `$` (so that `GetSubstitution` leaves it unchanged). -/
def TableOK (references : RenameTable) : Prop :=
  ∀ kv ∈ references, ∃ ttl : Str,
    ('/' ∉ ttl) ∧ ('$' ∉ kv.2) ∧ kv.2 = ttl ++ '_' :: kv.1

/-- If the text replaced by `replaceFirstL` starts inside the 14-character
pattern window, the result no longer starts with the pattern. -/
theorem overlap_not_pat (s new : Str) (i L : Nat)
    (hilt : i < PAT.length) (hile : i ≤ s.length)
    (hnewslash : '/' ∉ new) (hnewund : '_' ∈ new) :
    hasPfx PAT (s.take i ++ new ++ s.drop (i + L)) = false := by
  by_contra hcon
  rw [Bool.not_eq_false] at hcon
  obtain ⟨t0, ht0⟩ := (hasPfx_iff _ _).1 hcon
  have hlen_take : (s.take i).length = i := by
    rw [List.length_take]
    omega
  have h1 : new ++ s.drop (i + L) = PAT.drop i ++ t0 := by
    have h2 := congrArg (List.drop i) ht0
    rw [List.append_assoc, List.drop_left' hlen_take, List.drop_append_eq_append_drop] at h2
    have hz : i - PAT.length = 0 := by omega
    rw [hz, List.drop_zero] at h2
    exact h2
  have h3 : hasPfx (PAT.drop i) (new ++ s.drop (i + L)) = true :=
    (hasPfx_iff _ _).2 ⟨t0, h1⟩
  have hqne : PAT.drop i ≠ [] := by
    intro hnil
    rw [List.drop_eq_nil_iff] at hnil
    omega
  have h4 := helperNoPat (PAT.drop i) new (s.drop (i + L)) hqne
      ⟨PAT.take i, List.take_append_drop i PAT⟩ hnewslash hnewund
  rw [h3] at h4
  exact absurd h4 (by decide)

/-- Rewriting a `$ref` string with a well-shaped rename table either leaves
it unchanged or, whenever the result is still of the form
`#/definitions/<segment>`, makes its first segment one of the table's
namespaced values. -/
theorem rewriteRefStr_resolve (references : RenameTable) (hok : TableOK references) (s : Str)
    (hform : ofForm (rewriteRefStr s references)) :
    rewriteRefStr s references = s ∨
      firstSeg (rewriteRefStr s references) ∈ references.map (fun kv => kv.2) := by
  rcases hf : findRefSeg s with _ | seg
  · left
    simp [rewriteRefStr, hf]
  rcases hl : lookupRef references seg with _ | new
  · left
    simp [rewriteRefStr, hf, hl]
  right
  have hres : rewriteRefStr s references = replaceFirstL s seg new := by
    simp [rewriteRefStr, hf, hl]
  rw [hres] at hform ⊢
  obtain ⟨hsegne, hsegchars, p, hpat_p, hsegdef⟩ := findRefSeg_some s seg hf
  have hmem := lookupRef_mem references seg new hl
  obtain ⟨ttl, httl, hnd, hnew0⟩ := hok (seg, new) hmem
  have hnew : new = ttl ++ '_' :: seg := hnew0
  have hnewdollar : '$' ∉ new := hnd
  have hnewslash : '/' ∉ new := by
    rw [hnew]
    intro hm
    rcases List.mem_append.1 hm with hm | hm
    · exact httl hm
    · rcases List.mem_cons.1 hm with hm | hm
      · exact absurd hm (by decide)
      · exact hsegchars '/' hm rfl
  have hnewund : '_' ∈ new := by
    rw [hnew]
    exact List.mem_append_right _ (List.mem_cons_self _ _)
  have hocc : hasPfx seg (s.drop (p + PAT.length)) = true := by
    rw [hasPfx_iff]
    refine ⟨((s.drop p).drop PAT.length).dropWhile (fun ch => ch ≠ '/'), ?_⟩
    rw [← List.drop_drop, hsegdef, List.takeWhile_append_dropWhile]
  by_cases hforms : hasPfx PAT s = true ∧ firstSeg s ≠ []
  · -- the regex matched at position 0, so seg is the first segment of s
    have hf0 : findRefSeg s = some (firstSeg s) := findRefSeg_at0 s hforms.1 hforms.2
    have hseg0 : seg = firstSeg s := by
      rw [hf0] at hf
      exact (Option.some.inj hf).symm
    obtain ⟨tail, htail⟩ := (hasPfx_iff PAT s).1 hforms.1
    have hdropPL : s.drop PAT.length = tail := by
      rw [htail, List.drop_left]
    have hseg_tail : seg = tail.takeWhile (fun ch => ch ≠ '/') := by
      rw [hseg0]
      unfold firstSeg
      rw [hdropPL]
    have hocc14 : hasPfx seg (s.drop PAT.length) = true := by
      rw [hasPfx_iff, hdropPL]
      exact ⟨tail.dropWhile (fun ch => ch ≠ '/'), by rw [hseg_tail, List.takeWhile_append_dropWhile]⟩
    obtain ⟨i, hile, hpi, heq⟩ := replFirst_decomp s seg new PAT.length hsegne hocc14
    rw [subDollar_no_dollar seg (s.take i) (s.drop (i + seg.length)) new hnewdollar] at heq
    rcases Nat.lt_or_ge i PAT.length with hilt | hige
    · exfalso
      have hilen : i < s.length := occ_lt_length s seg i hsegne hpi
      have := overlap_not_pat s new i seg.length hilt (Nat.le_of_lt hilen) hnewslash hnewund
      rw [heq] at hform
      rw [hform.1] at this
      exact absurd this (by decide)
    · have hieq : i = PAT.length := Nat.le_antisymm hile hige
      rw [heq, hieq]
      have htake : s.take PAT.length = PAT := by
        rw [htail, List.take_left]
      have hdrop2 : s.drop (PAT.length + seg.length) = tail.drop seg.length := by
        rw [← List.drop_drop, hdropPL]
      have hdw : tail.drop seg.length = tail.dropWhile (fun ch => ch ≠ '/') := by
        conv_lhs => rw [← List.takeWhile_append_dropWhile (p := fun ch => ch ≠ '/') (l := tail)]
        rw [List.drop_left' (by rw [← hseg_tail])]
      have : firstSeg (s.take PAT.length ++ new ++ s.drop (PAT.length + seg.length)) = new := by
        unfold firstSeg
        rw [htake, hdrop2, hdw, List.append_assoc, List.drop_left' (by rfl)]
        refine takeWhile_append_all _ new _ ?_ ?_
        · intro c hc
          simp only [decide_eq_true_eq]
          intro hcs
          exact hnewslash (hcs ▸ hc)
        · intro c hc
          have := dropWhile_head_not (fun ch => ch ≠ '/') tail c hc
          simpa using this
      rw [this]
      exact List.mem_map.2 ⟨(seg, new), hmem, rfl⟩
  · -- s does not itself start as a well-formed pointer: every rewrite that
    -- could apply destroys the pattern, contradicting hform
    exfalso
    obtain ⟨i, hile, hpi, heq⟩ := replFirst_decomp s seg new (p + PAT.length) hsegne hocc
    rw [subDollar_no_dollar seg (s.take i) (s.drop (i + seg.length)) new hnewdollar] at heq
    rcases Nat.lt_or_ge i PAT.length with hilt | hige
    · have hilen : i < s.length := occ_lt_length s seg i hsegne hpi
      have := overlap_not_pat s new i seg.length hilt (Nat.le_of_lt hilen) hnewslash hnewund
      rw [heq] at hform
      rw [hform.1] at this
      exact absurd this (by decide)
    · -- i ≥ PAT.length: then s starts with the pattern after all
      obtain ⟨t0, ht0⟩ := (hasPfx_iff PAT _).1 (heq ▸ hform.1)
      have hilen : i < s.length := occ_lt_length s seg i hsegne hpi
      have htk : s.take PAT.length = PAT := by
        have h2 := congrArg (List.take PAT.length) ht0
        rw [List.append_assoc, List.take_append_of_le_length (by rw [List.length_take]; omega),
            List.take_take, List.take_left' rfl] at h2
        have hmin : min PAT.length i = PAT.length := by omega
        rw [hmin] at h2
        exact h2
      have hPATs : hasPfx PAT s = true := by
        rw [hasPfx_iff]
        refine ⟨s.drop PAT.length, ?_⟩
        conv_lhs => rw [← List.take_append_drop PAT.length s]
        rw [htk]
      have hfs : firstSeg s = [] := by
        by_contra hne
        exact hforms ⟨hPATs, hne⟩
      rcases hdrop14 : s.drop PAT.length with _ | ⟨d, dtail⟩
      · -- s ends at the pattern: no occurrence of seg at i ≥ PAT.length
        have hsl : s.length ≤ PAT.length := by
          rw [← List.drop_eq_nil_iff]
          exact hdrop14
        omega
      · have hd : d = '/' := by
          unfold firstSeg at hfs
          rw [hdrop14, List.takeWhile_cons] at hfs
          by_cases hdd : d = '/'
          · exact hdd
          · simp [hdd] at hfs
        rcases Nat.lt_or_ge PAT.length i with hgt | hle2
        · -- i > PAT.length: the first segment of the result is empty
          apply hform.2
          unfold firstSeg
          rw [heq, List.append_assoc, List.drop_append_eq_append_drop]
          have hlt : (s.take i).length = i := by
            rw [List.length_take]
            omega
          have hz : PAT.length - (s.take i).length = 0 := by omega
          rw [hz, List.drop_zero, List.drop_take, hdrop14]
          have hpos : i - PAT.length ≠ 0 := by omega
          cases hc2 : i - PAT.length with
          | zero => exact absurd hc2 hpos
          | succ m =>
              rw [List.take_succ_cons, List.cons_append, List.takeWhile_cons]
              simp [hd]
        · -- i = PAT.length: seg would have to start with '/'
          have hieq : i = PAT.length := by omega
          rw [hieq, hdrop14] at hpi
          cases seg with
          | nil => exact hsegne rfl
          | cons e es =>
              have he : e = d := by
                rw [hasPfx] at hpi
                simp only [Bool.and_eq_true, beq_iff_eq] at hpi
                exact hpi.1
              exact hsegchars e (List.mem_cons_self _ _) (he.trans hd)

/-! ### Resolution of references through a whole value rewrite -/

/-- `strOK A s`: if `s` is of the form `#/definitions/<segment>`, its first
segment is one of the names in `A`. -/
def strOK (A : List Str) (s : Str) : Prop := ofForm s → firstSeg s ∈ A

theorem strOK_mono {A B : List Str} (h : ∀ x ∈ A, x ∈ B) {s : Str}
    (hs : strOK A s) : strOK B s :=
  fun hf => h _ (hs hf)

theorem strOK_rewrite (references : RenameTable) (hok : TableOK references)
    (A : List Str) (s : Str) (h : strOK A s) :
    strOK (A ++ references.map (fun kv => kv.2)) (rewriteRefStr s references) := by
  intro hf
  rcases rewriteRefStr_resolve references hok s hf with heq | hmem
  · rw [heq] at hf ⊢
    exact List.mem_append_left _ (h hf)
  · exact List.mem_append_right _ hmem

/-- `rewriteRefVal` on a string value: always succeeds, with the string
rewrite applied. -/
theorem rewriteRefVal_str (s : Str) (references : RenameTable) :
    rewriteRefVal (.str s) references = .ok (.str (rewriteRefStr s references)) := by
  rw [rewriteRefVal, rewriteRefStr]
  simp only [jsToString]
  cases hf : findRefSeg s with
  | none => rfl
  | some seg =>
      cases hl : lookupRef references seg with
      | none => simp [hl]
      | some new => simp [hl]

/-- A successful `rewriteRefVal` on a non-string value passes it through
unchanged. -/
theorem rewriteRefVal_ok_nonstr (v : JValue) (references : RenameTable)
    (w : JValue) (hne : ∀ s, v ≠ .str s)
    (h : rewriteRefVal v references = .ok w) : w = v := by
  rw [rewriteRefVal] at h
  cases hf : findRefSeg (jsToString v) with
  | none =>
      simp only [hf] at h
      cases h
      rfl
  | some seg =>
      simp only [hf] at h
      cases hl : lookupRef references seg with
      | none =>
          simp only [hl] at h
          cases h
          rfl
      | some new =>
          simp only [hl] at h
          cases v with
          | str s => exact absurd rfl (hne s)
          | null => exact absurd h (by simp)
          | bool b => exact absurd h (by simp)
          | num n => exact absurd h (by simp)
          | arr xs => exact absurd h (by simp)
          | obj fs => exact absurd h (by simp)

mutual
theorem refsIn_upd (references : RenameTable) (hok : TableOK references) (A : List Str) :
    ∀ (v w : JValue), updateReferences v references = .ok w →
      (∀ r ∈ refsIn v, strOK A r) →
      ∀ r ∈ refsIn w, strOK (A ++ references.map (fun kv => kv.2)) r
  | .null, w, h, _ => by
      simp only [updateReferences] at h
      by_cases he : references.isEmpty
      · simp only [if_pos he] at h
        cases h
        intro r hr
        simp [refsIn] at hr
      · simp only [if_neg he] at h
        cases h
        intro r hr
        simp [refsIn] at hr
  | .bool b, w, h, _ => by
      simp only [updateReferences] at h
      by_cases he : references.isEmpty
      · simp only [if_pos he] at h
        cases h
        intro r hr
        simp [refsIn] at hr
      · simp only [if_neg he] at h
        cases h
        intro r hr
        simp [refsIn] at hr
  | .num n, w, h, _ => by
      simp only [updateReferences] at h
      by_cases he : references.isEmpty
      · simp only [if_pos he] at h
        cases h
        intro r hr
        simp [refsIn] at hr
      · simp only [if_neg he] at h
        cases h
        intro r hr
        simp [refsIn] at hr
  | .str s, w, h, _ => by
      simp only [updateReferences] at h
      by_cases he : references.isEmpty
      · simp only [if_pos he] at h
        cases h
        intro r hr
        simp [refsIn] at hr
      · simp only [if_neg he] at h
        cases h
        intro r hr
        simp [refsIn] at hr
  | .arr xs, w, h, hv => by
      rw [updateReferences] at h
      by_cases he : references.isEmpty
      · simp only [if_pos he] at h
        cases h
        intro r hr
        exact strOK_mono (fun x hx => List.mem_append_left _ hx) (hv r hr)
      · simp only [if_neg he] at h
        cases harr : updateReferencesArr xs references with
        | error e =>
            simp only [harr] at h
            exact Except.noConfusion h
        | ok ys =>
            simp only [harr] at h
            cases h
            exact refsIn_updArr references hok A xs ys harr hv
  | .obj fs, w, h, hv => by
      rw [updateReferences] at h
      by_cases he : references.isEmpty
      · simp only [if_pos he] at h
        cases h
        intro r hr
        exact strOK_mono (fun x hx => List.mem_append_left _ hx) (hv r hr)
      · simp only [if_neg he] at h
        cases hfs : updateReferencesFields fs references with
        | error e =>
            simp only [hfs] at h
            exact Except.noConfusion h
        | ok gs =>
            simp only [hfs] at h
            cases h
            exact refsIn_updObj references hok A fs gs hfs hv
theorem refsIn_updArr (references : RenameTable) (hok : TableOK references) (A : List Str) :
    ∀ (xs ys : JArr), updateReferencesArr xs references = .ok ys →
      (∀ r ∈ refsInArr xs, strOK A r) →
      ∀ r ∈ refsInArr ys, strOK (A ++ references.map (fun kv => kv.2)) r
  | .nil, ys, h, _ => by
      rw [updateReferencesArr] at h
      cases h
      intro r hr
      simp [refsInArr] at hr
  | .cons v tl, ys, h, hv => by
      rw [updateReferencesArr] at h
      cases hv1 : updateReferences v references with
      | error e =>
          simp only [hv1] at h
          exact Except.noConfusion h
      | ok w =>
          simp only [hv1] at h
          cases htl : updateReferencesArr tl references with
          | error e =>
              simp only [htl] at h
              exact Except.noConfusion h
          | ok ws =>
              simp only [htl] at h
              cases h
              intro r hr
              rw [refsInArr, List.mem_append] at hr
              rcases hr with hr | hr
              · exact refsIn_upd references hok A v w hv1
                  (fun x hx => hv x (by rw [refsInArr, List.mem_append]; exact Or.inl hx)) r hr
              · exact refsIn_updArr references hok A tl ws htl
                  (fun x hx => hv x (by rw [refsInArr, List.mem_append]; exact Or.inr hx)) r hr
theorem refsIn_updObj (references : RenameTable) (hok : TableOK references) (A : List Str) :
    ∀ (fs gs : JObj), updateReferencesFields fs references = .ok gs →
      (∀ r ∈ refsInObj fs, strOK A r) →
      ∀ r ∈ refsInObj gs, strOK (A ++ references.map (fun kv => kv.2)) r
  | .nil, gs, h, _ => by
      rw [updateReferencesFields] at h
      cases h
      intro r hr
      simp [refsInObj] at hr
  | .cons k v tl, gs, h, hv => by
      have hin : ∀ x, (x ∈ refContrib k v ∨ x ∈ refsIn v ∨ x ∈ refsInObj tl) →
          x ∈ refsInObj (JObj.cons k v tl) := by
        intro x hx
        rw [refsInObj, List.mem_append, List.mem_append]
        tauto
      rw [updateReferencesFields] at h
      by_cases hk : k = refKey
      · simp only [if_pos hk] at h
        cases hrv : rewriteRefVal v references with
        | error e =>
            simp only [hrv] at h
            exact Except.noConfusion h
        | ok w =>
            simp only [hrv] at h
            cases htl : updateReferencesFields tl references with
            | error e =>
                simp only [htl] at h
                exact Except.noConfusion h
            | ok ws =>
                simp only [htl] at h
                cases h
                have hrec := refsIn_updObj references hok A tl ws htl
                  (fun x hx => hv x (hin x (Or.inr (Or.inr hx))))
                intro r hr
                rw [refsInObj, List.mem_append, List.mem_append] at hr
                rcases hr with (hr | hr) | hr
                · -- the rewritten string contribution of the `$ref` entry
                  cases v with
                  | str s =>
                      rw [rewriteRefVal_str] at hrv
                      cases hrv
                      simp only [refContrib, strVal, if_pos hk, List.mem_singleton] at hr
                      rw [hr]
                      refine strOK_rewrite references hok A s ?_
                      exact hv s (hin s (Or.inl (by simp [refContrib, strVal, hk])))
                  | null =>
                      have hw := rewriteRefVal_ok_nonstr _ references w (by intro s hc; cases hc) hrv
                      rw [hw] at hr
                      simp [refContrib, strVal] at hr
                  | bool b =>
                      have hw := rewriteRefVal_ok_nonstr _ references w (by intro s hc; cases hc) hrv
                      rw [hw] at hr
                      simp [refContrib, strVal] at hr
                  | num n =>
                      have hw := rewriteRefVal_ok_nonstr _ references w (by intro s hc; cases hc) hrv
                      rw [hw] at hr
                      simp [refContrib, strVal] at hr
                  | arr xs =>
                      have hw := rewriteRefVal_ok_nonstr _ references w (by intro s hc; cases hc) hrv
                      rw [hw] at hr
                      simp [refContrib, strVal] at hr
                  | obj gs2 =>
                      have hw := rewriteRefVal_ok_nonstr _ references w (by intro s hc; cases hc) hrv
                      rw [hw] at hr
                      simp [refContrib, strVal] at hr
                · -- pointers nested inside the `$ref` value, which is passed
                  -- through unchanged unless it is a string
                  cases v with
                  | str s =>
                      rw [rewriteRefVal_str] at hrv
                      cases hrv
                      simp [refsIn] at hr
                  | null =>
                      have hw := rewriteRefVal_ok_nonstr _ references w (by intro s hc; cases hc) hrv
                      rw [hw] at hr
                      simp [refsIn] at hr
                  | bool b =>
                      have hw := rewriteRefVal_ok_nonstr _ references w (by intro s hc; cases hc) hrv
                      rw [hw] at hr
                      simp [refsIn] at hr
                  | num n =>
                      have hw := rewriteRefVal_ok_nonstr _ references w (by intro s hc; cases hc) hrv
                      rw [hw] at hr
                      simp [refsIn] at hr
                  | arr xs =>
                      have hw := rewriteRefVal_ok_nonstr _ references w (by intro s hc; cases hc) hrv
                      rw [hw] at hr
                      exact strOK_mono (fun x hx => List.mem_append_left _ hx)
                        (hv r (hin r (Or.inr (Or.inl hr))))
                  | obj gs2 =>
                      have hw := rewriteRefVal_ok_nonstr _ references w (by intro s hc; cases hc) hrv
                      rw [hw] at hr
                      exact strOK_mono (fun x hx => List.mem_append_left _ hx)
                        (hv r (hin r (Or.inr (Or.inl hr))))
                · exact hrec r hr
      · simp only [if_neg hk] at h
        cases hv1 : updateReferences v references with
        | error e =>
            simp only [hv1] at h
            exact Except.noConfusion h
        | ok w =>
            simp only [hv1] at h
            cases htl : updateReferencesFields tl references with
            | error e =>
                simp only [htl] at h
                exact Except.noConfusion h
            | ok ws =>
                simp only [htl] at h
                cases h
                have hrec := refsIn_updObj references hok A tl ws htl
                  (fun x hx => hv x (hin x (Or.inr (Or.inr hx))))
                intro r hr
                rw [refsInObj, List.mem_append, List.mem_append] at hr
                rcases hr with (hr | hr) | hr
                · simp [refContrib, strVal, hk] at hr
                · exact refsIn_upd references hok A v w hv1
                    (fun x hx => hv x (hin x (Or.inr (Or.inl hx)))) r hr
                · exact hrec r hr
end

/-- Map-level version of the rewrite-preservation lemma for the worker of
`updateReferencesObj`. -/
theorem refsInMap_updObjGo (references : RenameTable) (hok : TableOK references)
    (A : List Str) :
    ∀ (m out : List (Str × JValue)), updateReferencesObj.go references m = .ok out →
      (∀ r ∈ refsInMap m, strOK A r) →
      ∀ r ∈ refsInMap out, strOK (A ++ references.map (fun kv => kv.2)) r
  | [], out, h, _ => by
      rw [updateReferencesObj.go] at h
      cases h
      intro r hr
      simp [refsInMap] at hr
  | (k, v) :: t, out, h, hm => by
      rw [updateReferencesObj.go] at h
      by_cases hk : k = refKey
      · simp only [if_pos hk] at h
        cases hrv : rewriteRefVal v references with
        | error e =>
            simp only [hrv] at h
            exact Except.noConfusion h
        | ok w =>
            simp only [hrv] at h
            cases hgo : updateReferencesObj.go references t with
            | error e =>
                simp only [hgo] at h
                exact Except.noConfusion h
            | ok ws =>
                simp only [hgo] at h
                cases h
                have hrec := refsInMap_updObjGo references hok A t ws hgo
                  (fun x hx => hm x (by rw [refsInMap, List.mem_append]; exact Or.inr hx))
                intro r hr
                rw [refsInMap, List.mem_append] at hr
                rcases hr with hr | hr
                · cases v with
                  | str s =>
                      rw [rewriteRefVal_str] at hrv
                      cases hrv
                      simp [refsIn] at hr
                  | null =>
                      have hw := rewriteRefVal_ok_nonstr _ references w (by intro s hc; cases hc) hrv
                      rw [hw] at hr
                      simp [refsIn] at hr
                  | bool b =>
                      have hw := rewriteRefVal_ok_nonstr _ references w (by intro s hc; cases hc) hrv
                      rw [hw] at hr
                      simp [refsIn] at hr
                  | num n =>
                      have hw := rewriteRefVal_ok_nonstr _ references w (by intro s hc; cases hc) hrv
                      rw [hw] at hr
                      simp [refsIn] at hr
                  | arr xs =>
                      have hw := rewriteRefVal_ok_nonstr _ references w (by intro s hc; cases hc) hrv
                      rw [hw] at hr
                      exact strOK_mono (fun x hx => List.mem_append_left _ hx)
                        (hm r (by rw [refsInMap, List.mem_append]; exact Or.inl hr))
                  | obj gs =>
                      have hw := rewriteRefVal_ok_nonstr _ references w (by intro s hc; cases hc) hrv
                      rw [hw] at hr
                      exact strOK_mono (fun x hx => List.mem_append_left _ hx)
                        (hm r (by rw [refsInMap, List.mem_append]; exact Or.inl hr))
                · exact hrec r hr
      · simp only [if_neg hk] at h
        cases hv1 : updateReferences v references with
        | error e =>
            simp only [hv1] at h
            exact Except.noConfusion h
        | ok w =>
            simp only [hv1] at h
            cases hgo : updateReferencesObj.go references t with
            | error e =>
                simp only [hgo] at h
                exact Except.noConfusion h
            | ok ws =>
                simp only [hgo] at h
                cases h
                have hrec := refsInMap_updObjGo references hok A t ws hgo
                  (fun x hx => hm x (by rw [refsInMap, List.mem_append]; exact Or.inr hx))
                intro r hr
                rw [refsInMap, List.mem_append] at hr
                rcases hr with hr | hr
                · exact refsIn_upd references hok A v w hv1
                    (fun x hx => hm x (by rw [refsInMap, List.mem_append]; exact Or.inl hx)) r hr
                · exact hrec r hr

/-- Map-level version of the rewrite-preservation lemma, for
`updateReferencesObj` on the top-level definition map (whose values only are
scanned for pointers). -/
theorem refsInMap_updObj (references : RenameTable) (hok : TableOK references)
    (A : List Str) (m out : List (Str × JValue))
    (h : updateReferencesObj m references = .ok out)
    (hm : ∀ r ∈ refsInMap m, strOK A r) :
    ∀ r ∈ refsInMap out, strOK (A ++ references.map (fun kv => kv.2)) r := by
  rw [updateReferencesObj] at h
  by_cases he : references.isEmpty
  · rw [if_pos he] at h
    cases h
    intro r hr
    exact strOK_mono (fun x hx => List.mem_append_left _ hx) (hm r hr)
  · rw [if_neg he] at h
    exact refsInMap_updObjGo references hok A m out h hm

/-! ### Association-list bookkeeping -/

theorem getVal_append_left : ∀ (a b : List (Str × JValue)) (k : Str) (v : JValue),
    getVal a k = some v → getVal (a ++ b) k = some v
  | [], _, _, _, h => by simp [getVal] at h
  | (k', v') :: t, b, k, v, h => by
      rw [getVal] at h
      rw [List.cons_append, getVal]
      by_cases hk : k' = k
      · rwa [if_pos hk] at h ⊢
      · rw [if_neg hk] at h ⊢
        exact getVal_append_left t b k v h

theorem getVal_append_none : ∀ (a b : List (Str × JValue)) (k : Str),
    getVal a k = none → getVal (a ++ b) k = getVal b k
  | [], _, _, _ => by simp
  | (k', v') :: t, b, k, h => by
      rw [getVal] at h
      rw [List.cons_append, getVal]
      by_cases hk : k' = k
      · rw [if_pos hk] at h
        exact absurd h (by simp)
      · rw [if_neg hk] at h ⊢
        exact getVal_append_none t b k h

theorem getVal_none_iff : ∀ (m : List (Str × JValue)) (k : Str),
    getVal m k = none ↔ k ∉ keys m
  | [], k => by simp [getVal, keys]
  | (k', v') :: t, k => by
      rw [getVal, keys, List.map_cons]
      by_cases hk : k' = k
      · rw [if_pos hk]
        constructor
        · intro h
          exact absurd h (Option.some_ne_none v')
        · intro h
          rw [← hk] at h
          exact absurd (List.mem_cons_self _ _) h
      · rw [if_neg hk]
        rw [getVal_none_iff t k]
        constructor
        · intro h hc
          rcases List.mem_cons.1 hc with hc | hc
          · exact hk hc.symm
          · exact h hc
        · intro h hc
          exact h (List.mem_cons_of_mem _ hc)

theorem getVal_isSome_iff (m : List (Str × JValue)) (k : Str) :
    (getVal m k).isSome = true ↔ k ∈ keys m := by
  rw [← Decidable.not_iff_not, ← getVal_none_iff]
  cases getVal m k <;> simp

theorem getVal_mem : ∀ (m : List (Str × JValue)) (k : Str) (v : JValue),
    getVal m k = some v → (k, v) ∈ m
  | [], _, _, h => by simp [getVal] at h
  | (k', v') :: t, k, v, h => by
      rw [getVal] at h
      by_cases hk : k' = k
      · rw [if_pos hk] at h
        rw [hk, Option.some.inj h]
        exact List.mem_cons_self _ _
      · rw [if_neg hk] at h
        exact List.mem_cons_of_mem _ (getVal_mem t k v h)

theorem keys_append (a b : List (Str × JValue)) : keys (a ++ b) = keys a ++ keys b := by
  simp [keys]

theorem refsInMap_append : ∀ (a b : List (Str × JValue)),
    refsInMap (a ++ b) = refsInMap a ++ refsInMap b
  | [], b => by simp [refsInMap]
  | (k, v) :: t, b => by
      rw [List.cons_append, refsInMap, refsInMap, refsInMap_append t b, List.append_assoc]

theorem refsInMap_mem_of_mem : ∀ (m : List (Str × JValue)) (k : Str) (v : JValue)
    (r : Str), (k, v) ∈ m → r ∈ refsIn v → r ∈ refsInMap m
  | [], _, _, _, h, _ => absurd h (List.not_mem_nil _)
  | (k', v') :: t, k, v, r, h, hr => by
      rw [refsInMap, List.mem_append]
      rcases List.mem_cons.1 h with h | h
      · left
        rw [show v' = v from (Prod.mk.injEq _ _ _ _ ▸ h.symm).2]
        exact hr
      · exact Or.inr (refsInMap_mem_of_mem t k v r h hr)

theorem keys_updObjGo (references : RenameTable) :
    ∀ (m out : List (Str × JValue)), updateReferencesObj.go references m = .ok out →
      keys out = keys m
  | [], out, h => by
      rw [updateReferencesObj.go] at h
      cases h
      rfl
  | (k, v) :: t, out, h => by
      rw [updateReferencesObj.go] at h
      cases hw : (if k = refKey then rewriteRefVal v references
                  else updateReferences v references) with
      | error e =>
          simp only [hw] at h
          exact Except.noConfusion h
      | ok w =>
          simp only [hw] at h
          cases hgo : updateReferencesObj.go references t with
          | error e =>
              simp only [hgo] at h
              exact Except.noConfusion h
          | ok ws =>
              simp only [hgo] at h
              cases h
              have hrec := keys_updObjGo references t ws hgo
              simp only [keys, List.map_cons] at hrec ⊢
              rw [hrec]

theorem keys_updObj (m : List (Str × JValue)) (references : RenameTable)
    (out : List (Str × JValue)) (h : updateReferencesObj m references = .ok out) :
    keys out = keys m := by
  rw [updateReferencesObj] at h
  by_cases he : references.isEmpty
  · rw [if_pos he] at h
    cases h
    rfl
  · rw [if_neg he] at h
    exact keys_updObjGo references m out h

/-! ### Lemmas about `mergeSecurityDefinitions` -/

theorem mergeSecDefs_go_preserve (right : SwaggerSpec) :
    ∀ (rs acc out : List (Str × JValue)),
      mergeSecurityDefinitions.go right acc rs = .ok out →
      ∀ k v, getVal acc k = some v → getVal out k = some v
  | [], acc, out, h => by
      rw [mergeSecurityDefinitions.go] at h
      cases h
      intro k v hk
      exact hk
  | (n, v) :: t, acc, out, h => by
      rw [mergeSecurityDefinitions.go] at h
      intro k v' hk
      cases hg : getVal acc n with
      | some existing =>
          simp only [hg] at h
          by_cases he : deepEqual existing v = true
          · rw [if_pos he] at h
            exact mergeSecDefs_go_preserve right t acc out h k v' hk
          · rw [if_neg he] at h
            exact absurd h (by simp)
      | none =>
          simp only [hg] at h
          exact mergeSecDefs_go_preserve right t _ out h k v'
            (getVal_append_left acc [(n, v)] k v' hk)

theorem mergeSecDefs_go_refs (right : SwaggerSpec) :
    ∀ (rs acc out : List (Str × JValue)),
      mergeSecurityDefinitions.go right acc rs = .ok out →
      ∀ r ∈ refsInMap out, r ∈ refsInMap acc ∨ r ∈ refsInMap rs
  | [], acc, out, h => by
      rw [mergeSecurityDefinitions.go] at h
      cases h
      intro r hr
      exact Or.inl hr
  | (n, v) :: t, acc, out, h => by
      rw [mergeSecurityDefinitions.go] at h
      intro r hr
      cases hg : getVal acc n with
      | some existing =>
          simp only [hg] at h
          by_cases he : deepEqual existing v = true
          · rw [if_pos he] at h
            rcases mergeSecDefs_go_refs right t acc out h r hr with h2 | h2
            · exact Or.inl h2
            · exact Or.inr (by rw [refsInMap, List.mem_append]; exact Or.inr h2)
          · rw [if_neg he] at h
            exact absurd h (by simp)
      | none =>
          simp only [hg] at h
          rcases mergeSecDefs_go_refs right t _ out h r hr with h2 | h2
          · rw [refsInMap_append, List.mem_append] at h2
            rcases h2 with h2 | h2
            · exact Or.inl h2
            · rw [refsInMap, refsInMap, List.append_nil] at h2
              exact Or.inr (by rw [refsInMap, List.mem_append]; exact Or.inl h2)
          · exact Or.inr (by rw [refsInMap, List.mem_append]; exact Or.inr h2)

theorem mergeSecurityDefinitions_preserve (left right : SwaggerSpec)
    (out : List (Str × JValue)) (h : mergeSecurityDefinitions left right = .ok out) :
    ∀ k v, getVal (left.securityDefinitions.getD []) k = some v → getVal out k = some v := by
  rw [mergeSecurityDefinitions] at h
  cases hs : right.securityDefinitions with
  | none =>
      simp only [hs] at h
      cases h
      intro k v hk
      exact hk
  | some rs =>
      simp only [hs] at h
      exact mergeSecDefs_go_preserve right rs _ out h

theorem mergeSecurityDefinitions_refs (left right : SwaggerSpec)
    (out : List (Str × JValue)) (h : mergeSecurityDefinitions left right = .ok out) :
    ∀ r ∈ refsInMap out,
      r ∈ refsInMap (left.securityDefinitions.getD [])
        ∨ r ∈ refsInMap (right.securityDefinitions.getD []) := by
  rw [mergeSecurityDefinitions] at h
  cases hs : right.securityDefinitions with
  | none =>
      simp only [hs] at h
      cases h
      intro r hr
      exact Or.inl hr
  | some rs =>
      simp only [hs] at h
      intro r hr
      simpa using mergeSecDefs_go_refs right rs _ out h r hr

/-! ### Lemmas about `mergeDefinitions` -/

theorem mergeDefs_go_preserve (right : SwaggerSpec) :
    ∀ (rdefs defs : List (Str × JValue)) (references : RenameTable)
      (out : List (Str × JValue)) (tbl : RenameTable),
      mergeDefinitions.go right defs references rdefs = .ok (out, tbl) →
      ∀ k v, getVal defs k = some v → getVal out k = some v
  | [], defs, references, out, tbl, h => by
      rw [mergeDefinitions.go] at h
      cases h
      intro k v hk
      exact hk
  | (name, v) :: t, defs, references, out, tbl, h => by
      simp only [mergeDefinitions.go] at h
      intro k v' hk
      cases hg : getVal defs name with
      | some existing =>
          simp only [hg] at h
          by_cases he : deepEqual existing v = true
          · rw [if_pos he] at h
            exact mergeDefs_go_preserve right t defs references out tbl h k v' hk
          · rw [if_neg he] at h
            by_cases hf : (getVal defs (right.info.title ++ '_' :: name)).isSome = true
            · rw [if_pos hf] at h
              exact absurd h (by simp)
            · rw [if_neg hf] at h
              exact mergeDefs_go_preserve right t _ _ out tbl h k v'
                (getVal_append_left defs _ k v' hk)
      | none =>
          simp only [hg] at h
          exact mergeDefs_go_preserve right t _ references out tbl h k v'
            (getVal_append_left defs _ k v' hk)

theorem mergeDefs_go_keys (right : SwaggerSpec)
    (rdefs defs : List (Str × JValue)) (references : RenameTable)
    (out : List (Str × JValue)) (tbl : RenameTable)
    (h : mergeDefinitions.go right defs references rdefs = .ok (out, tbl)) :
    ∀ k, k ∈ keys defs → k ∈ keys out := by
  intro k hk
  rw [← getVal_isSome_iff] at hk ⊢
  cases hv : getVal defs k with
  | none => rw [hv] at hk; simp at hk
  | some v => rw [mergeDefs_go_preserve right rdefs defs references out tbl h k v hv]; rfl

theorem mergeDefs_go_names (right : SwaggerSpec) :
    ∀ (rdefs defs : List (Str × JValue)) (references : RenameTable)
      (out : List (Str × JValue)) (tbl : RenameTable),
      mergeDefinitions.go right defs references rdefs = .ok (out, tbl) →
      ∀ e ∈ rdefs, e.1 ∈ keys out
  | [], defs, references, out, tbl, h => by
      intro e he
      exact absurd he (List.not_mem_nil e)
  | (name, v) :: t, defs, references, out, tbl, h => by
      simp only [mergeDefinitions.go] at h
      intro e he
      rcases List.mem_cons.1 he with he | he
      · rw [he]
        cases hg : getVal defs name with
        | some existing =>
            have hmem : name ∈ keys defs := by
              rw [← getVal_isSome_iff, hg]
              rfl
            simp only [hg] at h
            by_cases hee : deepEqual existing v = true
            · rw [if_pos hee] at h
              exact mergeDefs_go_keys right t defs references out tbl h name hmem
            · rw [if_neg hee] at h
              by_cases hf : (getVal defs (right.info.title ++ '_' :: name)).isSome = true
              · rw [if_pos hf] at h
                exact absurd h (by simp)
              · rw [if_neg hf] at h
                exact mergeDefs_go_keys right t _ _ out tbl h name
                  (by rw [keys_append, List.mem_append]; exact Or.inl hmem)
        | none =>
            simp only [hg] at h
            exact mergeDefs_go_keys right t _ references out tbl h name
              (by rw [keys_append]; exact List.mem_append_right _ (List.mem_singleton.2 rfl))
      · cases hg : getVal defs name with
        | some existing =>
            simp only [hg] at h
            by_cases hee : deepEqual existing v = true
            · rw [if_pos hee] at h
              exact mergeDefs_go_names right t defs references out tbl h e he
            · rw [if_neg hee] at h
              by_cases hf : (getVal defs (right.info.title ++ '_' :: name)).isSome = true
              · rw [if_pos hf] at h
                exact absurd h (by simp)
              · rw [if_neg hf] at h
                exact mergeDefs_go_names right t _ _ out tbl h e he
        | none =>
            simp only [hg] at h
            exact mergeDefs_go_names right t _ references out tbl h e he

theorem mergeDefs_go_nodup (right : SwaggerSpec) :
    ∀ (rdefs defs : List (Str × JValue)) (references : RenameTable)
      (out : List (Str × JValue)) (tbl : RenameTable),
      mergeDefinitions.go right defs references rdefs = .ok (out, tbl) →
      (keys defs).Nodup → (keys out).Nodup
  | [], defs, references, out, tbl, h => by
      rw [mergeDefinitions.go] at h
      cases h
      exact id
  | (name, v) :: t, defs, references, out, tbl, h => by
      simp only [mergeDefinitions.go] at h
      intro hnd
      cases hg : getVal defs name with
      | some existing =>
          simp only [hg] at h
          by_cases he : deepEqual existing v = true
          · rw [if_pos he] at h
            exact mergeDefs_go_nodup right t defs references out tbl h hnd
          · rw [if_neg he] at h
            by_cases hf : (getVal defs (right.info.title ++ '_' :: name)).isSome = true
            · rw [if_pos hf] at h
              exact absurd h (by simp)
            · rw [if_neg hf] at h
              refine mergeDefs_go_nodup right t _ _ out tbl h ?_
              rw [keys_append]
              have : right.info.title ++ '_' :: name ∉ keys defs := by
                rw [← getVal_none_iff]
                cases hgv : getVal defs (right.info.title ++ '_' :: name) with
                | none => rfl
                | some w => rw [hgv] at hf; exact absurd rfl hf
              rw [List.nodup_append]
              refine ⟨hnd, List.nodup_singleton _, ?_⟩
              intro a ha hb
              have hb2 : a = right.info.title ++ '_' :: name := List.mem_singleton.1 hb
              rw [hb2] at ha
              exact this ha
      | none =>
          simp only [hg] at h
          refine mergeDefs_go_nodup right t _ references out tbl h ?_
          rw [keys_append]
          have : name ∉ keys defs := by
            rw [← getVal_none_iff]
            exact hg
          rw [List.nodup_append]
          refine ⟨hnd, List.nodup_singleton _, ?_⟩
          intro a ha hb
          have hb2 : a = name := List.mem_singleton.1 hb
          rw [hb2] at ha
          exact this ha

theorem mergeDefs_go_tableOK (right : SwaggerSpec) (htitle : '/' ∉ right.info.title)
    (hdol : '$' ∉ right.info.title) :
    ∀ (rdefs defs : List (Str × JValue)) (references : RenameTable)
      (out : List (Str × JValue)) (tbl : RenameTable),
      mergeDefinitions.go right defs references rdefs = .ok (out, tbl) →
      (∀ e ∈ rdefs, '$' ∉ e.1) →
      TableOK references → TableOK tbl
  | [], defs, references, out, tbl, h => by
      rw [mergeDefinitions.go] at h
      cases h
      intro _ hok
      exact hok
  | (name, v) :: t, defs, references, out, tbl, h => by
      simp only [mergeDefinitions.go] at h
      intro hnames hok
      have hnames2 : ∀ e ∈ t, '$' ∉ e.1 :=
        fun e he => hnames e (List.mem_cons_of_mem _ he)
      cases hg : getVal defs name with
      | some existing =>
          simp only [hg] at h
          by_cases he : deepEqual existing v = true
          · rw [if_pos he] at h
            exact mergeDefs_go_tableOK right htitle hdol t defs references out tbl h hnames2 hok
          · rw [if_neg he] at h
            by_cases hf : (getVal defs (right.info.title ++ '_' :: name)).isSome = true
            · rw [if_pos hf] at h
              exact absurd h (by simp)
            · rw [if_neg hf] at h
              refine mergeDefs_go_tableOK right htitle hdol t _ _ out tbl h hnames2 ?_
              intro kv hkv
              rcases List.mem_append.1 hkv with hkv | hkv
              · exact hok kv hkv
              · rw [List.mem_singleton] at hkv
                rw [hkv]
                refine ⟨right.info.title, htitle, ?_, rfl⟩
                intro hm
                rcases List.mem_append.1 hm with hm | hm
                · exact hdol hm
                · rcases List.mem_cons.1 hm with hm | hm
                  · exact absurd hm (by decide)
                  · exact hnames (name, v) (List.mem_cons_self _ _) hm
      | none =>
          simp only [hg] at h
          exact mergeDefs_go_tableOK right htitle hdol t _ references out tbl h hnames2 hok

theorem mergeDefs_go_tblKeys (right : SwaggerSpec) :
    ∀ (rdefs defs : List (Str × JValue)) (references : RenameTable)
      (out : List (Str × JValue)) (tbl : RenameTable),
      mergeDefinitions.go right defs references rdefs = .ok (out, tbl) →
      (∀ kv ∈ references, kv.2 ∈ keys defs) → ∀ kv ∈ tbl, kv.2 ∈ keys out
  | [], defs, references, out, tbl, h => by
      rw [mergeDefinitions.go] at h
      cases h
      exact id
  | (name, v) :: t, defs, references, out, tbl, h => by
      simp only [mergeDefinitions.go] at h
      intro hin
      cases hg : getVal defs name with
      | some existing =>
          simp only [hg] at h
          by_cases he : deepEqual existing v = true
          · rw [if_pos he] at h
            exact mergeDefs_go_tblKeys right t defs references out tbl h hin
          · rw [if_neg he] at h
            by_cases hf : (getVal defs (right.info.title ++ '_' :: name)).isSome = true
            · rw [if_pos hf] at h
              exact absurd h (by simp)
            · rw [if_neg hf] at h
              refine mergeDefs_go_tblKeys right t _ _ out tbl h ?_
              intro kv hkv
              rw [keys_append]
              rcases List.mem_append.1 hkv with hkv | hkv
              · exact List.mem_append_left _ (hin kv hkv)
              · rw [List.mem_singleton] at hkv
                rw [hkv]
                exact List.mem_append_right _ (List.mem_singleton.2 rfl)
      | none =>
          simp only [hg] at h
          refine mergeDefs_go_tblKeys right t _ references out tbl h ?_
          intro kv hkv
          rw [keys_append]
          exact List.mem_append_left _ (hin kv hkv)

theorem mergeDefs_go_refs (right : SwaggerSpec) :
    ∀ (rdefs defs : List (Str × JValue)) (references : RenameTable)
      (out : List (Str × JValue)) (tbl : RenameTable),
      mergeDefinitions.go right defs references rdefs = .ok (out, tbl) →
      ∀ r ∈ refsInMap out, r ∈ refsInMap defs ∨ r ∈ refsInMap rdefs
  | [], defs, references, out, tbl, h => by
      rw [mergeDefinitions.go] at h
      cases h
      intro r hr
      exact Or.inl hr
  | (name, v) :: t, defs, references, out, tbl, h => by
      simp only [mergeDefinitions.go] at h
      intro r hr
      have hmemt : ∀ x, x ∈ refsInMap t → x ∈ refsInMap ((name, v) :: t) := by
        intro x hx
        rw [refsInMap, List.mem_append]
        exact Or.inr hx
      have hmemv : ∀ x, x ∈ refsIn v → x ∈ refsInMap ((name, v) :: t) := by
        intro x hx
        rw [refsInMap, List.mem_append]
        exact Or.inl hx
      cases hg : getVal defs name with
      | some existing =>
          simp only [hg] at h
          by_cases he : deepEqual existing v = true
          · rw [if_pos he] at h
            rcases mergeDefs_go_refs right t defs references out tbl h r hr with h2 | h2
            · exact Or.inl h2
            · exact Or.inr (hmemt r h2)
          · rw [if_neg he] at h
            by_cases hf : (getVal defs (right.info.title ++ '_' :: name)).isSome = true
            · rw [if_pos hf] at h
              exact absurd h (by simp)
            · rw [if_neg hf] at h
              rcases mergeDefs_go_refs right t _ _ out tbl h r hr with h2 | h2
              · rw [refsInMap_append, List.mem_append] at h2
                rcases h2 with h2 | h2
                · exact Or.inl h2
                · rw [refsInMap, refsInMap, List.append_nil] at h2
                  exact Or.inr (hmemv r h2)
              · exact Or.inr (hmemt r h2)
      | none =>
          simp only [hg] at h
          rcases mergeDefs_go_refs right t _ references out tbl h r hr with h2 | h2
          · rw [refsInMap_append, List.mem_append] at h2
            rcases h2 with h2 | h2
            · exact Or.inl h2
            · rw [refsInMap, refsInMap, List.append_nil] at h2
              exact Or.inr (hmemv r h2)
          · exact Or.inr (hmemt r h2)

/-- Unfold `mergeDefinitions` to its worker on the actual definition lists. -/
theorem mergeDefinitions_eq_go (left right : SwaggerSpec) :
    mergeDefinitions left right =
      match right.definitions with
      | none => .ok (left.definitions.getD [], [])
      | some rdefs => mergeDefinitions.go right (left.definitions.getD []) [] rdefs := by
  rw [mergeDefinitions]

/-! ### Lemmas about `mergePaths` -/

theorem refsInObj_append (k : Str) (v : JValue) :
    ∀ (fs : JObj), refsInObj (fs.append k v) = refsInObj fs ++ (refContrib k v ++ refsIn v)
  | .nil => by simp [JObj.append, refsInObj]
  | .cons k' v' t => by
      rw [JObj.append, refsInObj, refsInObj, refsInObj_append k v t]
      simp [List.append_assoc]

theorem injectSecurity_cons (sec : JValue) (m : Str) (op : JValue) (tl : JObj) :
    injectSecurity sec (JObj.cons m op tl) =
      .cons m
        (if m ∈ httpMethods then
          match op with
          | .obj fields =>
              if fields.hasKey secKey then JValue.obj fields
              else .obj (fields.append secKey sec)
          | other => other
        else op)
        (injectSecurity sec tl) := rfl

theorem refsIn_inject (sec : JValue) : ∀ (fs : JObj) (r : Str),
    r ∈ refsInObj (injectSecurity sec fs) → r ∈ refsInObj fs ∨ r ∈ refsIn sec
  | .nil, r, h => by simp [injectSecurity, refsInObj] at h
  | .cons m op tl, r, h => by
      have hrec := refsIn_inject sec tl
      have hkeep : ∀ op2 : JValue, r ∈ refsInObj (JObj.cons m op2 (injectSecurity sec tl)) →
          r ∈ refsInObj (JObj.cons m op2 tl) ∨ r ∈ refsIn sec := by
        intro op2 h2
        rw [refsInObj, List.mem_append, List.mem_append] at h2
        rcases h2 with (h2 | h2) | h2
        · exact Or.inl (by rw [refsInObj, List.mem_append, List.mem_append]; tauto)
        · exact Or.inl (by rw [refsInObj, List.mem_append, List.mem_append]; tauto)
        · rcases hrec r h2 with h3 | h3
          · exact Or.inl (by rw [refsInObj, List.mem_append, List.mem_append]; tauto)
          · exact Or.inr h3
      rw [injectSecurity_cons] at h
      by_cases hm : m ∈ httpMethods
      · simp only [if_pos hm] at h
        cases op with
        | obj fields =>
            by_cases hsec : fields.hasKey secKey = true
            · simp only [if_pos hsec] at h
              exact hkeep _ h
            · simp only [if_neg hsec] at h
              rw [refsInObj, List.mem_append, List.mem_append] at h
              rcases h with (h | h) | h
              · rw [refContrib] at h
                by_cases hk : m = refKey
                · rw [if_pos hk] at h
                  simp [strVal] at h
                · rw [if_neg hk] at h
                  simp at h
              · rw [show refsIn (JValue.obj (fields.append secKey sec)) =
                      refsInObj (fields.append secKey sec) from rfl,
                    refsInObj_append, List.mem_append, List.mem_append] at h
                rcases h with h | h | h
                · refine Or.inl ?_
                  rw [refsInObj, List.mem_append, List.mem_append]
                  exact Or.inl (Or.inr h)
                · rw [refContrib] at h
                  rw [if_neg (by decide : ¬ secKey = refKey)] at h
                  simp at h
                · exact Or.inr h
              · rcases hrec r h with h3 | h3
                · refine Or.inl ?_
                  rw [refsInObj, List.mem_append, List.mem_append]
                  exact Or.inr h3
                · exact Or.inr h3
        | null => exact hkeep _ h
        | bool b => exact hkeep _ h
        | num n => exact hkeep _ h
        | str s => exact hkeep _ h
        | arr xs => exact hkeep _ h
      · simp only [if_neg hm] at h
        exact hkeep _ h

theorem refsIn_applySec (right : SwaggerSpec) (item : JValue) (r : Str)
    (h : r ∈ refsIn (applyGlobalSecurity right item)) :
    r ∈ refsIn item ∨ (∃ sec, right.security = some sec ∧ r ∈ refsIn sec) := by
  rw [applyGlobalSecurity] at h
  cases hs : right.security with
  | none =>
      rw [hs] at h
      exact Or.inl h
  | some sec =>
      rw [hs] at h
      cases item with
      | obj methods =>
          rcases refsIn_inject sec methods r h with h2 | h2
          · exact Or.inl h2
          · exact Or.inr ⟨sec, rfl, h2⟩
      | null => exact Or.inl h
      | bool b => exact Or.inl h
      | num n => exact Or.inl h
      | str s => exact Or.inl h
      | arr xs => exact Or.inl h

theorem mergePaths_go_preserve (right : SwaggerSpec) :
    ∀ (rp acc out : List (Str × JValue)),
      mergePaths.go right acc rp = .ok out →
      ∀ k v, getVal acc k = some v → getVal out k = some v
  | [], acc, out, h => by
      rw [mergePaths.go] at h
      cases h
      intro k v hk
      exact hk
  | (path, item) :: t, acc, out, h => by
      rw [mergePaths.go] at h
      intro k v hk
      by_cases hc : (getVal acc (right.basePath.getD [] ++ path)).isSome = true
      · rw [if_pos hc] at h
        exact absurd h (by simp)
      · rw [if_neg hc] at h
        exact mergePaths_go_preserve right t _ out h k v (getVal_append_left acc _ k v hk)

theorem mergePaths_go_nodup (right : SwaggerSpec) :
    ∀ (rp acc out : List (Str × JValue)),
      mergePaths.go right acc rp = .ok out →
      (keys acc).Nodup → (keys out).Nodup
  | [], acc, out, h => by
      rw [mergePaths.go] at h
      cases h
      exact id
  | (path, item) :: t, acc, out, h => by
      rw [mergePaths.go] at h
      intro hnd
      by_cases hc : (getVal acc (right.basePath.getD [] ++ path)).isSome = true
      · rw [if_pos hc] at h
        exact absurd h (by simp)
      · rw [if_neg hc] at h
        refine mergePaths_go_nodup right t _ out h ?_
        rw [keys_append, List.nodup_append]
        have hnotin : right.basePath.getD [] ++ path ∉ keys acc := by
          rw [← getVal_none_iff]
          cases hgv : getVal acc (right.basePath.getD [] ++ path) with
          | none => rfl
          | some w => rw [hgv] at hc; exact absurd rfl hc
        refine ⟨hnd, List.nodup_singleton _, ?_⟩
        intro a ha hb
        have hb2 : a = right.basePath.getD [] ++ path := List.mem_singleton.1 hb
        rw [hb2] at ha
        exact hnotin ha

theorem mergePaths_go_refs (right : SwaggerSpec) :
    ∀ (rp acc out : List (Str × JValue)),
      mergePaths.go right acc rp = .ok out →
      ∀ r ∈ refsInMap out, r ∈ refsInMap acc ∨ r ∈ refsInMap rp ∨
        (∃ sec, right.security = some sec ∧ r ∈ refsIn sec)
  | [], acc, out, h => by
      rw [mergePaths.go] at h
      cases h
      intro r hr
      exact Or.inl hr
  | (path, item) :: t, acc, out, h => by
      rw [mergePaths.go] at h
      intro r hr
      by_cases hc : (getVal acc (right.basePath.getD [] ++ path)).isSome = true
      · rw [if_pos hc] at h
        exact absurd h (by simp)
      · rw [if_neg hc] at h
        rcases mergePaths_go_refs right t _ out h r hr with h2 | h2 | h2
        · rw [refsInMap_append, List.mem_append] at h2
          rcases h2 with h2 | h2
          · exact Or.inl h2
          · rw [refsInMap, refsInMap, List.append_nil] at h2
            rcases refsIn_applySec right item r h2 with h3 | h3
            · exact Or.inr (Or.inl (by rw [refsInMap, List.mem_append]; exact Or.inl h3))
            · exact Or.inr (Or.inr h3)
        · exact Or.inr (Or.inl (by rw [refsInMap, List.mem_append]; exact Or.inr h2))
        · exact Or.inr (Or.inr h2)

/-! ### Reference rewriting of a whole document -/

theorem updDoc_nil (s : SwaggerSpec) : updateReferencesDoc s [] = .ok s := by
  rw [updateReferencesDoc]
  rfl

theorem updOptMap_inv (references : RenameTable) (hok : TableOK references)
    (A : List Str) (o o2 : Option (List (Str × JValue)))
    (h : updOptMap o references = .ok o2)
    (hm : ∀ r ∈ refsInMap (o.getD []), strOK A r) :
    ∀ r ∈ refsInMap (o2.getD []), strOK (A ++ references.map (fun kv => kv.2)) r := by
  cases o with
  | none =>
      rw [updOptMap] at h
      cases h
      intro r hr
      simp [refsInMap] at hr
  | some m =>
      rw [updOptMap] at h
      cases hu : updateReferencesObj m references with
      | error e =>
          simp only [hu] at h
          exact Except.noConfusion h
      | ok out =>
          simp only [hu, Except.map] at h
          cases h
          exact refsInMap_updObj references hok A m out hu hm

theorem updOptVal_inv (references : RenameTable) (hok : TableOK references)
    (A : List Str) (o o2 : Option JValue)
    (h : updOptVal o references = .ok o2)
    (hm : ∀ v, o = some v → ∀ r ∈ refsIn v, strOK A r) :
    ∀ v2, o2 = some v2 → ∀ r ∈ refsIn v2,
      strOK (A ++ references.map (fun kv => kv.2)) r := by
  cases o with
  | none =>
      rw [updOptVal] at h
      cases h
      intro v2 hv2
      exact absurd hv2 (by simp)
  | some v =>
      rw [updOptVal] at h
      cases hu : updateReferences v references with
      | error e =>
          simp only [hu] at h
          exact Except.noConfusion h
      | ok w =>
          simp only [hu, Except.map] at h
          cases h
          intro v2 hv2
          cases hv2
          exact refsIn_upd references hok A v w hu (hm v rfl)

theorem specRefs_secdefs (s : SwaggerSpec) :
    ∀ r ∈ refsInMap (s.securityDefinitions.getD []), r ∈ specRefs s := by
  intro r hr
  rw [specRefs]
  simp only [List.mem_append]
  tauto

theorem specRefs_security (s : SwaggerSpec) (sec : JValue) (h : s.security = some sec) :
    ∀ r ∈ refsIn sec, r ∈ specRefs s := by
  intro r hr
  rw [specRefs]
  simp only [List.mem_append, h]
  tauto

theorem specRefs_paths (s : SwaggerSpec) :
    ∀ r ∈ refsInMap s.paths, r ∈ specRefs s := by
  intro r hr
  rw [specRefs]
  simp only [List.mem_append]
  tauto

theorem specRefs_defs (s : SwaggerSpec) :
    ∀ r ∈ refsInMap (s.definitions.getD []), r ∈ specRefs s := by
  intro r hr
  rw [specRefs]
  simp only [List.mem_append]
  tauto

theorem specRefs_updDoc (cur : SwaggerSpec) (tbl : RenameTable) (hok : TableOK tbl)
    (A : List Str) (cur2 : SwaggerSpec)
    (hupd : updateReferencesDoc cur tbl = .ok cur2)
    (h : ∀ r ∈ specRefs cur, strOK A r) :
    ∀ r ∈ specRefs cur2, strOK (A ++ tbl.map (fun kv => kv.2)) r := by
  rw [updateReferencesDoc] at hupd
  by_cases he : tbl.isEmpty
  · rw [if_pos he] at hupd
    cases hupd
    intro r hr
    exact strOK_mono (fun x hx => List.mem_append_left _ hx) (h r hr)
  · rw [if_neg he] at hupd
    cases h1 : updOptMap cur.securityDefinitions tbl with
    | error e =>
        simp only [h1] at hupd
        exact absurd hupd (by simp)
    | ok sd =>
    simp only [h1] at hupd
    cases h2 : updOptVal cur.security tbl with
    | error e =>
        simp only [h2] at hupd
        exact absurd hupd (by simp)
    | ok sec =>
    simp only [h2] at hupd
    cases h3 : updateReferencesObj cur.paths tbl with
    | error e =>
        simp only [h3] at hupd
        exact absurd hupd (by simp)
    | ok ps =>
    simp only [h3] at hupd
    cases h4 : updOptMap cur.definitions tbl with
    | error e =>
        simp only [h4] at hupd
        exact absurd hupd (by simp)
    | ok ds =>
    simp only [h4] at hupd
    cases hupd
    intro r hr
    rw [specRefs] at hr
    simp only [List.mem_append] at hr
    rcases hr with ((hr | hr) | hr) | hr
    · exact updOptMap_inv tbl hok A _ sd h1
        (fun x hx => h x (specRefs_secdefs cur x hx)) r hr
    · cases hsec : sec with
      | none => rw [hsec] at hr; simp at hr
      | some sv =>
          rw [hsec] at hr
          exact updOptVal_inv tbl hok A _ sec h2
            (fun v hv x hx => h x (specRefs_security cur v hv x hx)) sv hsec r hr
    · exact refsInMap_updObj tbl hok A cur.paths ps h3
        (fun x hx => h x (specRefs_paths cur x hx)) r hr
    · exact updOptMap_inv tbl hok A _ ds h4
        (fun x hx => h x (specRefs_defs cur x hx)) r hr

/-! ### The fold-step invariant -/

theorem specRefs_cases (s : SwaggerSpec) (r : Str) (h : r ∈ specRefs s) :
    r ∈ refsInMap (s.securityDefinitions.getD []) ∨
      (∃ sec, s.security = some sec ∧ r ∈ refsIn sec) ∨
      r ∈ refsInMap s.paths ∨ r ∈ refsInMap (s.definitions.getD []) := by
  rw [specRefs] at h
  simp only [List.mem_append] at h
  rcases h with ((h | h) | h) | h
  · tauto
  · cases hs : s.security with
    | none => rw [hs] at h; simp at h
    | some v => rw [hs] at h; exact Or.inr (Or.inl ⟨v, rfl, h⟩)
  · tauto
  · tauto

theorem stepTags_fields (acc cur : SwaggerSpec) :
    (stepTags acc cur).definitions = acc.definitions ∧
      (stepTags acc cur).paths = acc.paths ∧
      (stepTags acc cur).securityDefinitions = acc.securityDefinitions ∧
      (stepTags acc cur).security = acc.security := by
  rw [stepTags]
  split <;> exact ⟨rfl, rfl, rfl, rfl⟩

theorem specRefs_stepTags (acc cur : SwaggerSpec) :
    specRefs (stepTags acc cur) = specRefs acc := by
  rw [stepTags]
  split <;> rfl

theorem stepSecDefs_inv (acc cur acc2 : SwaggerSpec) (A : List Str)
    (h : stepSecDefs acc cur = .ok acc2)
    (haccsd : ∀ r ∈ refsInMap (acc.securityDefinitions.getD []), strOK A r)
    (hcursd : ∀ r ∈ refsInMap (cur.securityDefinitions.getD []), strOK A r) :
    acc2.definitions = acc.definitions ∧ acc2.paths = acc.paths ∧
      acc2.security = acc.security ∧
      (∀ r ∈ refsInMap (acc2.securityDefinitions.getD []), strOK A r) := by
  rw [stepSecDefs] at h
  by_cases hsd : cur.securityDefinitions.isSome = true
  · rw [if_pos hsd] at h
    cases hm : mergeSecurityDefinitions acc cur with
    | error e => rw [hm] at h; exact absurd h (by simp [Except.map])
    | ok sd =>
        rw [hm] at h
        simp only [Except.map] at h
        cases h
        refine ⟨rfl, rfl, rfl, ?_⟩
        intro r hr
        have hr2 : r ∈ refsInMap sd := hr
        rcases mergeSecurityDefinitions_refs acc cur sd hm r hr2 with h2 | h2
        · exact haccsd r h2
        · exact hcursd r h2
  · rw [if_neg hsd] at h
    cases h
    exact ⟨rfl, rfl, rfl, haccsd⟩

theorem mergeStep_inv (A : List Str) (acc cur acc' : SwaggerSpec)
    (hstep : mergeStep acc cur = .ok acc')
    (hWFacc : SpecWF acc) (htitle : '/' ∉ cur.info.title)
    (hdoltitle : '$' ∉ cur.info.title)
    (hdolnames : ∀ k ∈ defNames cur, '$' ∉ k)
    (hcur : ∀ r ∈ specRefs cur, strOK A r)
    (hacc : ∀ r ∈ specRefs acc, strOK (A ++ defNames acc) r) :
    SpecWF acc' ∧
      (∀ k, k ∈ defNames acc → k ∈ defNames acc') ∧
      (∀ k, k ∈ defNames cur → k ∈ defNames acc') ∧
      (∀ r ∈ specRefs acc', strOK (A ++ defNames acc') r) := by
  rw [mergeStep] at hstep
  cases hvc : versionCheck acc cur with
  | some e => simp only [hvc] at hstep; exact absurd hstep (by simp)
  | none =>
  simp only [hvc] at hstep
  -- the tags stage
  obtain ⟨ht_defs, ht_paths, ht_sd, ht_sec⟩ := stepTags_fields acc cur
  -- the security-definitions stage
  cases hsd : stepSecDefs (stepTags acc cur) cur with
  | error e => simp only [hsd] at hstep; exact absurd hstep (by simp)
  | ok acc2 =>
  simp only [hsd] at hstep
  have hAdefs : ∀ r ∈ specRefs cur, strOK (A ++ defNames acc) r :=
    fun r hr => strOK_mono (fun x hx => List.mem_append_left _ hx) (hcur r hr)
  obtain ⟨h2_defs, h2_paths, h2_sec, h2_sd⟩ :=
    stepSecDefs_inv (stepTags acc cur) cur acc2 (A ++ defNames acc) hsd
      (by rw [ht_sd]; intro r hr; exact hacc r (specRefs_secdefs acc r hr))
      (fun r hr => hAdefs r (specRefs_secdefs cur r hr))
  rw [ht_defs] at h2_defs
  rw [ht_paths] at h2_paths
  rw [ht_sec] at h2_sec
  -- the definitions stage
  cases hdf : stepDefs acc2 cur with
  | error e => simp only [hdf] at hstep; exact absurd hstep (by simp)
  | ok st =>
  obtain ⟨acc3, tbl⟩ := st
  simp only [hdf] at hstep
  rw [stepDefs] at hdf
  -- facts about the definitions stage, by cases on whether cur has definitions
  have hstage : acc3.paths = acc.paths ∧ acc3.security = acc.security ∧
      acc3.securityDefinitions = acc2.securityDefinitions ∧
      TableOK tbl ∧
      (∀ x ∈ tbl.map (fun kv => kv.2), x ∈ defNames acc3) ∧
      (∀ k, k ∈ defNames acc → k ∈ defNames acc3) ∧
      (∀ k, k ∈ defNames cur → k ∈ defNames acc3) ∧
      (defNames acc3).Nodup ∧
      (∀ r ∈ refsInMap (acc3.definitions.getD []), strOK (A ++ defNames acc3) r) := by
    by_cases hdef : cur.definitions.isSome = true
    · rw [if_pos hdef] at hdf
      cases hmd : mergeDefinitions acc2 cur with
      | error e =>
          rw [hmd] at hdf
          exact absurd hdf (by simp)
      | ok md =>
          rw [hmd] at hdf
          obtain ⟨defsOut, tblOut⟩ := md
          cases hup : updateReferencesObj defsOut tblOut with
          | error e =>
              simp only [hup] at hdf
              exact absurd hdf (by simp)
          | ok ds =>
          simp only [hup] at hdf
          cases hdf
          -- unfold mergeDefinitions to the worker
          rw [mergeDefinitions_eq_go] at hmd
          cases hrd : cur.definitions with
          | none => rw [hrd] at hdef; simp at hdef
          | some rdefs =>
          rw [hrd] at hmd
          have hgo := hmd
          have hnames2 : ∀ e ∈ rdefs, '$' ∉ e.1 := by
            intro e he
            refine hdolnames e.1 ?_
            rw [defNames, hrd, Option.getD_some, keys]
            exact List.mem_map.2 ⟨e, he, rfl⟩
          have hkeys3 : defNames ({ acc2 with
              definitions := some ds }) = keys defsOut := by
            rw [defNames]
            simp only [Option.getD_some]
            exact keys_updObj defsOut tbl ds hup
          have hmono : ∀ k, k ∈ keys (acc2.definitions.getD []) → k ∈ keys defsOut :=
            mergeDefs_go_keys cur rdefs _ [] defsOut tbl hgo
          have hnames : ∀ e ∈ rdefs, e.1 ∈ keys defsOut :=
            mergeDefs_go_names cur rdefs _ [] defsOut tbl hgo
          have hnodup : (keys defsOut).Nodup := by
            refine mergeDefs_go_nodup cur rdefs _ [] defsOut tbl hgo ?_
            rw [h2_defs]
            exact hWFacc.1
          have htblok : TableOK tbl :=
            mergeDefs_go_tableOK cur htitle hdoltitle rdefs _ [] defsOut tbl hgo
              hnames2 (fun kv hkv => absurd hkv (List.not_mem_nil kv))
          have htblkeys : ∀ kv ∈ tbl, kv.2 ∈ keys defsOut :=
            mergeDefs_go_tblKeys cur rdefs _ [] defsOut tbl hgo
              (fun kv hkv => absurd hkv (List.not_mem_nil kv))
          have hrefs : ∀ r ∈ refsInMap defsOut, strOK (A ++ defNames acc) r := by
            intro r hr
            rcases mergeDefs_go_refs cur rdefs _ [] defsOut tbl hgo r hr with h3 | h3
            · rw [h2_defs] at h3
              exact hacc r (specRefs_defs acc r h3)
            · refine hAdefs r (specRefs_defs cur r ?_)
              rw [hrd]
              exact h3
          refine ⟨h2_paths, h2_sec, rfl, htblok, ?_, ?_, ?_, ?_, ?_⟩
          · intro x hx
            rw [hkeys3]
            obtain ⟨kv, hkv, rfl⟩ := List.mem_map.1 hx
            exact htblkeys kv hkv
          · intro k hk
            rw [hkeys3]
            refine hmono k ?_
            rw [h2_defs]
            exact hk
          · intro k hk
            rw [hkeys3]
            rw [defNames, hrd, Option.getD_some, keys] at hk
            obtain ⟨e, he, rfl⟩ := List.mem_map.1 hk
            exact hnames e he
          · rw [hkeys3]
            exact hnodup
          · intro r hr
            have hr2 : r ∈ refsInMap ds := hr
            have := refsInMap_updObj tbl htblok (A ++ defNames acc) defsOut ds hup hrefs r hr2
            refine strOK_mono ?_ this
            intro x hx
            rcases List.mem_append.1 hx with hx | hx
            · rcases List.mem_append.1 hx with hx | hx
              · exact List.mem_append_left _ hx
              · refine List.mem_append_right _ ?_
                rw [hkeys3]
                refine hmono x ?_
                rw [h2_defs]
                exact hx
            · refine List.mem_append_right _ ?_
              rw [hkeys3]
              obtain ⟨kv, hkv, rfl⟩ := List.mem_map.1 hx
              exact htblkeys kv hkv
    · rw [if_neg hdef] at hdf
      cases hdf
      have hdefnil : defNames cur = [] := by
        rw [defNames]
        cases hd : cur.definitions with
        | none => rfl
        | some m => rw [hd] at hdef; simp at hdef
      refine ⟨h2_paths, h2_sec, rfl, fun kv hkv => absurd hkv (List.not_mem_nil kv), ?_, ?_, ?_, ?_, ?_⟩
      · intro x hx
        simp at hx
      · intro k hk
        rw [defNames, h2_defs]
        exact hk
      · intro k hk
        rw [hdefnil] at hk
        exact absurd hk (List.not_mem_nil k)
      · rw [defNames, h2_defs]
        exact hWFacc.1
      · intro r hr
        rw [h2_defs] at hr
        refine strOK_mono ?_ (hacc r (specRefs_defs acc r hr))
        intro x hx
        rcases List.mem_append.1 hx with hx | hx
        · exact List.mem_append_left _ hx
        · refine List.mem_append_right _ ?_
          rw [defNames, h2_defs]
          exact hx
  obtain ⟨h3_paths, h3_sec, h3_sd, h3_tblok, h3_tblkeys, h3_accmono, h3_curmono,
    h3_nodup, h3_defrefs⟩ := hstage
  -- the reference rewriting of the current spec
  cases hud : updateReferencesDoc cur tbl with
  | error e => simp only [hud] at hstep; exact absurd hstep (by simp)
  | ok cur2 =>
  simp only [hud] at hstep
  have hcur2 : ∀ r ∈ specRefs cur2, strOK (A ++ defNames acc3) r := by
    intro r hr
    refine strOK_mono ?_ (specRefs_updDoc cur tbl h3_tblok A cur2 hud hcur r hr)
    intro x hx
    rcases List.mem_append.1 hx with hx | hx
    · exact List.mem_append_left _ hx
    · exact List.mem_append_right _ (h3_tblkeys x hx)
  -- the paths stage
  cases hps : mergePaths acc3 cur2 with
  | error e => simp only [hps] at hstep; exact absurd hstep (by simp)
  | ok ps =>
  simp only [hps] at hstep
  cases hstep
  rw [mergePaths] at hps
  have hps_nodup : (keys ps).Nodup := by
    refine mergePaths_go_nodup _ _ _ _ hps ?_
    rw [h3_paths]
    exact hWFacc.2
  have hps_refs : ∀ r ∈ refsInMap ps, strOK (A ++ defNames acc3) r := by
    intro r hr
    rcases mergePaths_go_refs _ _ _ _ hps r hr with h3 | h3 | h3
    · rw [h3_paths] at h3
      refine strOK_mono ?_ (hacc r (specRefs_paths acc r h3))
      intro x hx
      rcases List.mem_append.1 hx with hx | hx
      · exact List.mem_append_left _ hx
      · exact List.mem_append_right _ (h3_accmono x hx)
    · exact hcur2 r (specRefs_paths _ r h3)
    · obtain ⟨sec, hsec, hrs⟩ := h3
      exact hcur2 r (specRefs_security _ sec hsec r hrs)
  -- assemble the conclusion for the final accumulator
  have hfin_defs : ({ acc3 with paths := ps } : SwaggerSpec).definitions = acc3.definitions := rfl
  have hfin_names : defNames ({ acc3 with paths := ps } : SwaggerSpec) = defNames acc3 := rfl
  refine ⟨⟨?_, ?_⟩, ?_, ?_, ?_⟩
  · rw [defNames] at h3_nodup
    exact h3_nodup
  · exact hps_nodup
  · intro k hk
    rw [hfin_names]
    exact h3_accmono k hk
  · intro k hk
    rw [hfin_names]
    exact h3_curmono k hk
  · intro r hr
    rw [hfin_names]
    rcases specRefs_cases _ r hr with h4 | h4 | h4 | h4
    · have h5 : r ∈ refsInMap (acc2.securityDefinitions.getD []) := by
        rw [← h3_sd]
        exact h4
      refine strOK_mono ?_ (h2_sd r h5)
      intro x hx
      rcases List.mem_append.1 hx with hx | hx
      · exact List.mem_append_left _ hx
      · exact List.mem_append_right _ (h3_accmono x hx)
    · obtain ⟨sec, hsec, hrs⟩ := h4
      have hsec2 : acc.security = some sec := by
        rw [← h3_sec]
        exact hsec
      refine strOK_mono ?_ (hacc r (specRefs_security acc sec hsec2 r hrs))
      intro x hx
      rcases List.mem_append.1 hx with hx | hx
      · exact List.mem_append_left _ hx
      · exact List.mem_append_right _ (h3_accmono x hx)
    · exact hps_refs r h4
    · exact h3_defrefs r h4

theorem mergeFold_inv (A : List Str) :
    ∀ (rest : List SwaggerSpec) (acc out : SwaggerSpec),
      mergeFold acc rest = .ok out →
      SpecWF acc →
      (∀ s ∈ rest, '/' ∉ s.info.title) →
      (∀ s ∈ rest, '$' ∉ s.info.title ∧ ∀ k ∈ defNames s, '$' ∉ k) →
      (∀ s ∈ rest, ∀ r ∈ specRefs s, strOK A r) →
      (∀ r ∈ specRefs acc, strOK (A ++ defNames acc) r) →
      SpecWF out ∧ (∀ k, k ∈ defNames acc → k ∈ defNames out) ∧
        (∀ s ∈ rest, ∀ k, k ∈ defNames s → k ∈ defNames out) ∧
        (∀ r ∈ specRefs out, strOK (A ++ defNames out) r)
  | [], acc, out, h, hWF, _, _, _, hacc => by
      rw [mergeFold] at h
      cases h
      exact ⟨hWF, fun k hk => hk, fun s hs => absurd hs (List.not_mem_nil s), hacc⟩
  | cur :: rest, acc, out, h, hWF, htitles, hdollars, hrefs, hacc => by
      rw [mergeFold] at h
      cases hstep : mergeStep acc cur with
      | error e => rw [hstep] at h; exact absurd h (by simp)
      | ok acc' =>
          rw [hstep] at h
          obtain ⟨hWF', hmono, hcurmono, hacc'⟩ :=
            mergeStep_inv A acc cur acc' hstep hWF
              (htitles cur (List.mem_cons_self _ _))
              (hdollars cur (List.mem_cons_self _ _)).1
              (hdollars cur (List.mem_cons_self _ _)).2
              (hrefs cur (List.mem_cons_self _ _)) hacc
          obtain ⟨hWFout, hmono', hrest, hout⟩ :=
            mergeFold_inv A rest acc' out h hWF'
              (fun s hs => htitles s (List.mem_cons_of_mem _ hs))
              (fun s hs => hdollars s (List.mem_cons_of_mem _ hs))
              (fun s hs => hrefs s (List.mem_cons_of_mem _ hs)) hacc'
          refine ⟨hWFout, fun k hk => hmono' k (hmono k hk), ?_, hout⟩
          intro s hs k hk
          rcases List.mem_cons.1 hs with hs | hs
          · exact hmono' k (hcurmono k (hs ▸ hk))
          · exact hrest s hs k hk

/-! ### Claim C1 -/

/-- C1 (amended): for every list of well-formed documents on which `merge`
succeeds, provided every `$ref` pointer of the form `#/definitions/<segment>`
in each input resolves to a schema name defined in some input document, and
provided additionally that no document's `info.title` contains the character
`/` and no document's `info.title` or definition name contains the character
`$` (which `String.replace` would expand as a substitution pattern), the
merged document has pairwise-distinct definition names, pairwise-distinct
path templates, and every `$ref` pointer of the form
`#/definitions/<segment>` occurring anywhere in it names a key of its
definitions map. -/
theorem claimC1_amended (specs : List SwaggerSpec) (out : SwaggerSpec)
    (hWF : ∀ s ∈ specs, SpecWF s)
    (htitles : ∀ s ∈ specs, '/' ∉ s.info.title)
    (hdollars : ∀ s ∈ specs, '$' ∉ s.info.title ∧ ∀ k ∈ defNames s, '$' ∉ k)
    (hrefs : ∀ s ∈ specs, ∀ r ∈ specRefs s, ofForm r → firstSeg r ∈ allDefNames specs)
    (hok : merge specs = .ok out) :
    (keys (out.definitions.getD [])).Nodup ∧ (keys out.paths).Nodup ∧
      ∀ r ∈ specRefs out, ofForm r → firstSeg r ∈ keys (out.definitions.getD []) := by
  cases specs with
  | nil => rw [merge] at hok; exact absurd hok (by simp)
  | cons s0 rest =>
      rw [merge] at hok
      obtain ⟨hWFout, hmono0, hmonorest, hout⟩ :=
        mergeFold_inv (allDefNames (s0 :: rest)) rest s0 out hok
          (hWF s0 (List.mem_cons_self _ _))
          (fun s hs => htitles s (List.mem_cons_of_mem _ hs))
          (fun s hs => hdollars s (List.mem_cons_of_mem _ hs))
          (fun s hs => hrefs s (List.mem_cons_of_mem _ hs))
          (fun r hr => strOK_mono (fun x hx => List.mem_append_left _ hx)
            (hrefs s0 (List.mem_cons_self _ _) r hr))
      have hA : ∀ x ∈ allDefNames (s0 :: rest), x ∈ defNames out := by
        intro x hx
        rw [allDefNames, List.mem_flatMap] at hx
        obtain ⟨s, hs, hx⟩ := hx
        rcases List.mem_cons.1 hs with hs | hs
        · exact hmono0 x (hs ▸ hx)
        · exact hmonorest s hs x hx
      refine ⟨hWFout.1, hWFout.2, ?_⟩
      intro r hr hform
      have := hout r hr hform
      rcases List.mem_append.1 this with h2 | h2
      · exact hA _ h2
      · exact h2

/-- Input A of the C1 counterexample. -/
def cexA : SwaggerSpec :=
  { info := ⟨"a".toList⟩, swagger := some "2.0".toList, paths := [],
    definitions := some
      [("Foo".toList, .obj (.cons "type".toList (.str "string".toList) .nil))] }

/-- Input B of the C1 counterexample: its title contains `/` and its only
definition collides with A's, forcing the rename `Foo ↦ b/c_Foo`. -/
def cexB : SwaggerSpec :=
  { info := ⟨"b/c".toList⟩, swagger := some "2.0".toList, paths := [],
    definitions := some
      [("Foo".toList, .obj (.cons refKey (.str "#/definitions/Foo".toList) .nil))] }

/-- The merged result of the C1 counterexample. -/
def cexOut : SwaggerSpec :=
  { info := ⟨"a".toList⟩, swagger := some "2.0".toList, paths := [],
    definitions := some
      [("Foo".toList, .obj (.cons "type".toList (.str "string".toList) .nil)),
       ("b/c_Foo".toList, .obj (.cons refKey (.str "#/definitions/b/c_Foo".toList) .nil))] }

/-- C1 as stated is false on the code: both inputs are well-formed, every
input pointer resolves to an input-defined schema name, and the merge
succeeds, yet the result contains the pointer `#/definitions/b/c_Foo`, whose
first segment `b` names no definition of the result. -/
theorem claimC1_counterexample :
    (∀ s ∈ [cexA, cexB], SpecWF s) ∧
      (∀ s ∈ [cexA, cexB], ∀ r ∈ specRefs s,
        ofForm r → firstSeg r ∈ allDefNames [cexA, cexB]) ∧
      merge [cexA, cexB] = .ok cexOut ∧
      (∃ r ∈ specRefs cexOut, ofForm r ∧
        firstSeg r ∉ keys (cexOut.definitions.getD [])) := by
  decide

/-- First input of the C1 witness (a clean, slash-free title). -/
def wtnA : SwaggerSpec :=
  { info := ⟨"a".toList⟩, swagger := some "2.0".toList, paths := [],
    definitions := some
      [("Foo".toList, .obj (.cons "type".toList (.str "string".toList) .nil))] }

/-- Second input of the C1 witness: its definition collides with A's, so the
merger renames it to `b_Foo` and the pointer is rewritten accordingly. -/
def wtnB : SwaggerSpec :=
  { info := ⟨"b".toList⟩, swagger := some "2.0".toList, paths := [],
    definitions := some
      [("Foo".toList, .obj (.cons refKey (.str "#/definitions/Foo".toList) .nil))] }

/-- The merged result of the C1 witness. -/
def wtnOut : SwaggerSpec :=
  { info := ⟨"a".toList⟩, swagger := some "2.0".toList, paths := [],
    definitions := some
      [("Foo".toList, .obj (.cons "type".toList (.str "string".toList) .nil)),
       ("b_Foo".toList, .obj (.cons refKey (.str "#/definitions/b_Foo".toList) .nil))] }

/-- Witness for C1 (amended) at a concrete two-document merge. -/
theorem claimC1_amended_witness :
    (keys (wtnOut.definitions.getD [])).Nodup ∧ (keys wtnOut.paths).Nodup ∧
      ∀ r ∈ specRefs wtnOut, ofForm r → firstSeg r ∈ keys (wtnOut.definitions.getD []) :=
  claimC1_amended [wtnA, wtnB] wtnOut (by decide) (by decide) (by decide) (by decide)
    (by decide)

/-! ### Claim-side descriptions of the mergers (modelled from the claims) -/

/-- Modelled from claim C2's words: one processing step of the definition
merger — insert under the original name when absent, skip when present and
structurally identical, otherwise namespace as `<title>_<name>`, failing when
the namespaced name is taken and recording the rename when it is not. -/
def specDefStep (rightTitle : Str) (st : (List (Str × JValue)) × RenameTable)
    (e : Str × JValue) : Except MergeError ((List (Str × JValue)) × RenameTable) :=
  if (getVal st.1 e.1).isNone then .ok (st.1 ++ [e], st.2)
  else if getVal st.1 e.1 = some e.2 then .ok st
  else if (getVal st.1 (rightTitle ++ '_' :: e.1)).isSome then
    .error (.duplicateDefinition (rightTitle ++ '_' :: e.1) rightTitle)
  else .ok (st.1 ++ [(rightTitle ++ '_' :: e.1, e.2)],
            st.2 ++ [(e.1, rightTitle ++ '_' :: e.1)])

/-- Left-to-right processing of the right document's definitions with
`specDefStep`. -/
def specDefFold (rightTitle : Str) (st : (List (Str × JValue)) × RenameTable) :
    List (Str × JValue) → Except MergeError ((List (Str × JValue)) × RenameTable)
  | [] => .ok st
  | e :: t =>
      match specDefStep rightTitle st e with
      | .ok st' => specDefFold rightTitle st' t
      | .error err => .error err

/-- Modelled from the corrected claim C2: the same processing step, with the
duplicate test being Node's legacy loose `deepEqual` instead of structural
equality. -/
def specDefStepJS (rightTitle : Str) (st : (List (Str × JValue)) × RenameTable)
    (e : Str × JValue) : Except MergeError ((List (Str × JValue)) × RenameTable) :=
  match getVal st.1 e.1 with
  | none => .ok (st.1 ++ [e], st.2)
  | some existing =>
      if deepEqual existing e.2 then .ok st
      else if (getVal st.1 (rightTitle ++ '_' :: e.1)).isSome then
        .error (.duplicateDefinition (rightTitle ++ '_' :: e.1) rightTitle)
      else .ok (st.1 ++ [(rightTitle ++ '_' :: e.1, e.2)],
                st.2 ++ [(e.1, rightTitle ++ '_' :: e.1)])

/-- Left-to-right processing of the right document's definitions with
`specDefStepJS`. -/
def specDefFoldJS (rightTitle : Str) (st : (List (Str × JValue)) × RenameTable) :
    List (Str × JValue) → Except MergeError ((List (Str × JValue)) × RenameTable)
  | [] => .ok st
  | e :: t =>
      match specDefStepJS rightTitle st e with
      | .ok st2 => specDefFoldJS rightTitle st2 t
      | .error err => .error err

theorem mergeDefs_go_eq_specFoldJS (right : SwaggerSpec) :
    ∀ (rdefs defs : List (Str × JValue)) (references : RenameTable),
      mergeDefinitions.go right defs references rdefs =
        specDefFoldJS right.info.title (defs, references) rdefs
  | [], defs, references => by
      rw [mergeDefinitions.go, specDefFoldJS]
  | (name, v) :: t, defs, references => by
      rw [specDefFoldJS]
      cases hg : getVal defs name with
      | none =>
          have hstep : specDefStepJS right.info.title (defs, references) (name, v) =
              .ok (defs ++ [(name, v)], references) := by
            simp [specDefStepJS, hg]
          rw [hstep, mergeDefinitions.go]
          simp only [hg]
          exact mergeDefs_go_eq_specFoldJS right t _ _
      | some existing =>
          by_cases he : deepEqual existing v = true
          · have hstep : specDefStepJS right.info.title (defs, references) (name, v) =
                .ok (defs, references) := by
              simp [specDefStepJS, hg, he]
            rw [hstep, mergeDefinitions.go]
            simp only [hg, if_pos he]
            exact mergeDefs_go_eq_specFoldJS right t _ _
          · by_cases hf : (getVal defs (right.info.title ++ '_' :: name)).isSome = true
            · have hstep : specDefStepJS right.info.title (defs, references) (name, v) =
                  .error (.duplicateDefinition (right.info.title ++ '_' :: name)
                    right.info.title) := by
                simp [specDefStepJS, hg, he, hf]
              rw [hstep, mergeDefinitions.go]
              simp only [hg, if_neg he, if_pos hf]
            · have hstep : specDefStepJS right.info.title (defs, references) (name, v) =
                  .ok (defs ++ [(right.info.title ++ '_' :: name, v)],
                       references ++ [(name, right.info.title ++ '_' :: name)]) := by
                simp [specDefStepJS, hg, he, hf]
              rw [hstep, mergeDefinitions.go]
              simp only [hg, if_neg he, if_neg hf]
              exact mergeDefs_go_eq_specFoldJS right t _ _

/-! ### Claim C2 -/

/-- The left input of the C2 counterexample: `{A: {v: 1}}`. -/
def c2L : SwaggerSpec :=
  { info := ⟨"foo".toList⟩, paths := [],
    definitions := some [("A".toList, .obj (.cons "v".toList (.num 1) .nil))] }

/-- The right input of the C2 counterexample: `{A: {v: "1"}}`, structurally
different from the left entry but loosely deep-equal (`1 == "1"`). -/
def c2R : SwaggerSpec :=
  { info := ⟨"bar".toList⟩, paths := [],
    definitions := some [("A".toList, .obj (.cons "v".toList (.str "1".toList) .nil))] }

/-- C2 as stated is false on the code: the duplicate test is Node's legacy
`assert.deepEqual`, which compares primitives with `==`, so the structurally
different collision `{v: 1}` / `{v: "1"}` is skipped with no rename, while
the claim's structural-equality fold inserts `bar_A` and records a
rename. -/
theorem claimC2_counterexample :
    mergeDefinitions c2L c2R =
      .ok ([("A".toList, .obj (.cons "v".toList (.num 1) .nil))], []) ∧
    specDefFold c2R.info.title (c2L.definitions.getD [], [])
        (c2R.definitions.getD []) =
      .ok ([("A".toList, .obj (.cons "v".toList (.num 1) .nil)),
            ("bar_A".toList, .obj (.cons "v".toList (.str "1".toList) .nil))],
           [("A".toList, "bar_A".toList)]) ∧
    mergeDefinitions c2L c2R ≠
      specDefFold c2R.info.title (c2L.definitions.getD [], [])
        (c2R.definitions.getD []) :=
  ⟨by decide, by decide, by decide⟩

/-- C2 (amended): for every pair of documents, `mergeDefinitions` starts from
the left document's definitions (or the empty map) together with an empty
rename table and processes each right-hand definition like claim C2
describes, except that the duplicate test is Node's legacy loose
`assert.deepEqual`: absent name — insert under the original name with no
rename; present and loosely deep-equal — skip; present and not loosely
deep-equal — insert under `<right.info.title>_<name>`, failing with
`DuplicateDefinitionError` when that name is already taken, and recording
the rename otherwise.  The rename table of the result contains exactly the
recorded renames. -/
theorem claimC2_amended (left right : SwaggerSpec) :
    mergeDefinitions left right =
      specDefFoldJS right.info.title (left.definitions.getD [], [])
        (right.definitions.getD []) := by
  rw [mergeDefinitions]
  cases hd : right.definitions with
  | none => rw [Option.getD_none, specDefFoldJS]
  | some rdefs =>
      rw [Option.getD_some]
      exact mergeDefs_go_eq_specFoldJS right rdefs _ []

/-! ### Claim C3 -/

/-- The schema `{type: "string"}`. -/
def strSchema : JValue := .obj (.cons "type".toList (.str "string".toList) .nil)

/-- The left input of claim C3. -/
def c3Left : SwaggerSpec :=
  { info := ⟨"foo".toList⟩, paths := [],
    definitions := some [("Foo".toList, strSchema)] }

/-- The right input of claim C3. -/
def c3Right : SwaggerSpec :=
  { info := ⟨"bar".toList⟩, paths := [],
    definitions := some [("Bar".toList, strSchema)] }

/-- C3 as stated is false on the code: since `Bar` does not collide with any
existing name, the collision-triggered merger keeps it as `Bar` and records
no rename, instead of the claimed `bar_Bar` with rename table
`{Bar: bar_Bar}`. -/
theorem claimC3_counterexample :
    mergeDefinitions c3Left c3Right =
      .ok ([("Foo".toList, strSchema), ("Bar".toList, strSchema)], []) ∧
    mergeDefinitions c3Left c3Right ≠
      .ok ([("Foo".toList, strSchema), ("bar_Bar".toList, strSchema)],
           [("Bar".toList, "bar_Bar".toList)]) :=
  ⟨by decide, by decide⟩

/-- C3 (amended): merging `{title: "foo", definitions: {Foo: {type:
"string"}}}` with `{title: "bar", definitions: {Bar: {type: "string"}}}`
returns the definitions map `{Foo: {type: "string"}, Bar: {type: "string"}}`
together with an empty rename table. -/
theorem claimC3_amended :
    mergeDefinitions c3Left c3Right =
      .ok ([("Foo".toList, strSchema), ("Bar".toList, strSchema)], []) := by
  decide

/-! ### Claim C4 -/

/-- C4 as stated is false on the code: with rename table `{d: "D2"}`, the
pointer `#/definitions/d` captures the segment `d`, but `String.replace`
replaces the first occurrence of `d` in the string — the `d` of
`definitions` — producing `#/D2efinitions/d` instead of the claimed
`#/definitions/D2`. -/
theorem claimC4_counterexample :
    updateReferences (.obj (.cons refKey (.str "#/definitions/d".toList) .nil))
        [("d".toList, "D2".toList)]
      = .ok (.obj (.cons refKey (.str "#/D2efinitions/d".toList) .nil)) ∧
    updateReferences (.obj (.cons refKey (.str "#/definitions/d".toList) .nil))
        [("d".toList, "D2".toList)]
      ≠ .ok (.obj (.cons refKey (.str "#/definitions/D2".toList) .nil)) :=
  ⟨by decide, by decide⟩

/-- Element-wise sequencing of a fallible map over a list, aborting at the
first error — the behaviour of `map`/`reduce` when the callback throws. -/
def traverseE {α β : Type} (f : α → Except MergeError β) :
    List α → Except MergeError (List β)
  | [] => .ok []
  | x :: t =>
      match f x with
      | .error e => .error e
      | .ok y =>
          match traverseE f t with
          | .error e => .error e
          | .ok ys => .ok (y :: ys)

theorem exceptMap_ok {α β : Type} (f : α → β) (a : α) :
    Except.map (ε := MergeError) f (.ok a) = .ok (f a) := rfl

theorem exceptMap_error {α β : Type} (f : α → β) (e : MergeError) :
    (Except.error e : Except MergeError α).map f = (.error e : Except MergeError β) := rfl

theorem updArr_ofList (references : RenameTable) :
    ∀ l : List JValue, updateReferencesArr (JArr.ofList l) references =
      (traverseE (fun v => updateReferences v references) l).map JArr.ofList
  | [] => rfl
  | x :: t => by
      rw [JArr.ofList, updateReferencesArr, traverseE]
      cases hx : updateReferences x references with
      | error e => simp [hx, Except.map]
      | ok w =>
          simp only [hx]
          rw [updArr_ofList references t]
          cases ht : traverseE (fun v => updateReferences v references) t with
          | error e => simp [ht, Except.map]
          | ok ws => simp [ht, Except.map, JArr.ofList]

theorem updObj_ofList (references : RenameTable) :
    ∀ l : List (Str × JValue), updateReferencesFields (JObj.ofList l) references =
      (traverseE (fun e =>
        if e.1 = refKey then (rewriteRefVal e.2 references).map (fun w => (e.1, w))
        else (updateReferences e.2 references).map (fun w => (e.1, w))) l).map
          JObj.ofList
  | [] => rfl
  | (k, v) :: t => by
      rw [JObj.ofList, updateReferencesFields]
      simp only [traverseE]
      by_cases hk : k = refKey
      · simp only [if_pos hk]
        cases hv : rewriteRefVal v references with
        | error e => simp only [hv, exceptMap_error]
        | ok w =>
            simp only [hv, exceptMap_ok]
            rw [updObj_ofList references t]
            cases ht : traverseE (fun e =>
                if e.1 = refKey then (rewriteRefVal e.2 references).map (fun w => (e.1, w))
                else (updateReferences e.2 references).map (fun w => (e.1, w))) t with
            | error e => rfl
            | ok ws => rfl
      · simp only [if_neg hk]
        cases hv : updateReferences v references with
        | error e => simp only [hv, exceptMap_error]
        | ok w =>
            simp only [hv, exceptMap_ok]
            rw [updObj_ofList references t]
            cases ht : traverseE (fun e =>
                if e.1 = refKey then (rewriteRefVal e.2 references).map (fun w => (e.1, w))
                else (updateReferences e.2 references).map (fun w => (e.1, w))) t with
            | error e => rfl
            | ok ws => rfl

/-- C4 (amended): with a non-empty rename table, the rewriter recurses
element-wise through arrays and key-by-key through objects (aborting at the
first raised error), leaves scalars unchanged, and treats the values of keys
literally named `$ref` as follows.  A string value whose text matches
`#/definitions/<first-segment>` with the captured segment a key of the table
has the first occurrence of the captured text replaced by the
`GetSubstitution` expansion of the renamed value (`replaceFirstL`); a string
that fails the pattern or whose segment is unknown passes through.  A
non-string value is first coerced to its JS string form for the regex test:
when that test fails or the segment is unknown, the value passes through
unchanged, but when it matches with a renamed segment, calling `.replace`
on the non-string value raises a `TypeError` and the whole rewrite fails —
not every non-string `$ref` value is passed through. -/
theorem claimC4_amended (references : RenameTable) (hne : references ≠ []) :
    (updateReferences .null references = .ok .null) ∧
    (∀ b, updateReferences (.bool b) references = .ok (.bool b)) ∧
    (∀ n, updateReferences (.num n) references = .ok (.num n)) ∧
    (∀ s, updateReferences (.str s) references = .ok (.str s)) ∧
    (∀ l, updateReferences (.arr (JArr.ofList l)) references =
      (traverseE (fun v => updateReferences v references) l).map
        (fun ws => .arr (JArr.ofList ws))) ∧
    (∀ l, updateReferences (.obj (JObj.ofList l)) references =
      (traverseE (fun e =>
        if e.1 = refKey then (rewriteRefVal e.2 references).map (fun w => (e.1, w))
        else (updateReferences e.2 references).map (fun w => (e.1, w))) l).map
          (fun ws => .obj (JObj.ofList ws))) ∧
    (∀ s, rewriteRefVal (.str s) references = .ok (.str (rewriteRefStr s references))) ∧
    (∀ v, (∀ s, v ≠ .str s) → findRefSeg (jsToString v) = none →
      rewriteRefVal v references = .ok v) ∧
    (∀ v seg, (∀ s, v ≠ .str s) → findRefSeg (jsToString v) = some seg →
      lookupRef references seg = none → rewriteRefVal v references = .ok v) ∧
    (∀ v seg new, (∀ s, v ≠ .str s) → findRefSeg (jsToString v) = some seg →
      lookupRef references seg = some new →
      rewriteRefVal v references = .error .typeError) ∧
    (∀ s, findRefSeg s = none → rewriteRefStr s references = s) ∧
    (∀ s seg, findRefSeg s = some seg → lookupRef references seg = none →
      rewriteRefStr s references = s) ∧
    (∀ s seg new, findRefSeg s = some seg → lookupRef references seg = some new →
      rewriteRefStr s references = replaceFirstL s seg new) ∧
    (∀ s seg, findRefSeg s = some seg →
      seg ≠ [] ∧ (∀ c ∈ seg, ¬ c = '/') ∧
        ∃ p, hasPfx PAT (s.drop p) = true ∧
          seg = ((s.drop p).drop PAT.length).takeWhile (fun ch => ch ≠ '/')) := by
  have hempty : references.isEmpty = false := by
    cases references with
    | nil => exact absurd rfl hne
    | cons e t => rfl
  refine ⟨?_, ?_, ?_, ?_, ?_, ?_, ?_, ?_, ?_, ?_, ?_, ?_, ?_, ?_⟩
  · simp [updateReferences, hempty]
  · intro b
    simp [updateReferences, hempty]
  · intro n
    simp [updateReferences, hempty]
  · intro s
    simp [updateReferences, hempty]
  · intro l
    rw [updateReferences]
    simp only [hempty, Bool.false_eq_true, if_false]
    rw [updArr_ofList]
    cases ht : traverseE (fun v => updateReferences v references) l with
    | error e => rfl
    | ok ws => rfl
  · intro l
    rw [updateReferences]
    simp only [hempty, Bool.false_eq_true, if_false]
    rw [updObj_ofList]
    cases ht : traverseE (fun e =>
        if e.1 = refKey then (rewriteRefVal e.2 references).map (fun w => (e.1, w))
        else (updateReferences e.2 references).map (fun w => (e.1, w))) l with
    | error e => rfl
    | ok ws => rfl
  · intro s
    exact rewriteRefVal_str s references
  · intro v hv hfind
    rw [rewriteRefVal, hfind]
  · intro v seg hv hfind hlook
    rw [rewriteRefVal, hfind]
    simp only [hlook]
  · intro v seg new hv hfind hlook
    cases v with
    | str s => exact absurd rfl (hv s)
    | null => rw [rewriteRefVal, hfind]; simp only [hlook]
    | bool b => rw [rewriteRefVal, hfind]; simp only [hlook]
    | num n => rw [rewriteRefVal, hfind]; simp only [hlook]
    | arr xs => rw [rewriteRefVal, hfind]; simp only [hlook]
    | obj fs => rw [rewriteRefVal, hfind]; simp only [hlook]
  · intro s hf
    rw [rewriteRefStr, hf]
  · intro s seg hf hl
    rw [rewriteRefStr, hf]
    simp only [hl]
  · intro s seg new hf hl
    rw [rewriteRefStr, hf]
    simp only [hl]
  · intro s seg hf
    exact findRefSeg_some s seg hf

/-- Witness for C4 (amended) at the concrete rename table `{a: "b"}`. -/
theorem claimC4_amended_witness :
    updateReferences .null [("a".toList, "b".toList)] = .ok .null :=
  (claimC4_amended [("a".toList, "b".toList)] (by decide)).1

/-! ### Claim C5 -/

theorem mergeSecDefs_go_notVersion (right : SwaggerSpec) :
    ∀ (rs acc : List (Str × JValue)) (t : Str),
      mergeSecurityDefinitions.go right acc rs ≠ .error (.versionMismatch t)
  | [], acc, t => by
      rw [mergeSecurityDefinitions.go]
      simp
  | (n, v) :: tl, acc, t => by
      rw [mergeSecurityDefinitions.go]
      cases hg : getVal acc n with
      | some existing =>
          simp only [hg]
          by_cases he : deepEqual existing v = true
          · rw [if_pos he]
            exact mergeSecDefs_go_notVersion right tl acc t
          · rw [if_neg he]
            simp
      | none =>
          simp only [hg]
          exact mergeSecDefs_go_notVersion right tl _ t

theorem mergeDefs_go_notVersion (right : SwaggerSpec) :
    ∀ (rdefs defs : List (Str × JValue)) (references : RenameTable) (t : Str),
      mergeDefinitions.go right defs references rdefs ≠ .error (.versionMismatch t)
  | [], defs, references, t => by
      rw [mergeDefinitions.go]
      simp
  | (name, v) :: tl, defs, references, t => by
      rw [mergeDefinitions.go]
      cases hg : getVal defs name with
      | some existing =>
          simp only [hg]
          by_cases he : deepEqual existing v = true
          · rw [if_pos he]
            exact mergeDefs_go_notVersion right tl defs references t
          · rw [if_neg he]
            by_cases hf : (getVal defs (right.info.title ++ '_' :: name)).isSome = true
            · simp only [hf, if_true]
              simp
            · simp only [hf, if_false]
              exact mergeDefs_go_notVersion right tl _ _ t
      | none =>
          simp only [hg]
          exact mergeDefs_go_notVersion right tl _ references t

theorem mergePaths_go_notVersion (right : SwaggerSpec) :
    ∀ (rp acc : List (Str × JValue)) (t : Str),
      mergePaths.go right acc rp ≠ .error (.versionMismatch t)
  | [], acc, t => by
      rw [mergePaths.go]
      simp
  | (path, item) :: tl, acc, t => by
      rw [mergePaths.go]
      by_cases hc : (getVal acc (right.basePath.getD [] ++ path)).isSome = true
      · simp only [hc, if_true]
        simp
      · simp only [hc, if_false]
        exact mergePaths_go_notVersion right tl _ t

theorem stepSecDefs_notVersion (acc cur : SwaggerSpec) (t : Str) :
    stepSecDefs acc cur ≠ .error (.versionMismatch t) := by
  rw [stepSecDefs]
  by_cases hc : cur.securityDefinitions.isSome = true
  · rw [if_pos hc]
    rw [mergeSecurityDefinitions]
    cases hs : cur.securityDefinitions with
    | none =>
        intro hcontra
        exact Except.noConfusion hcontra
    | some rs =>
        cases hgo : mergeSecurityDefinitions.go cur (acc.securityDefinitions.getD []) rs with
        | ok sd =>
            simp only [hgo]
            intro hcontra
            exact Except.noConfusion hcontra
        | error e =>
            simp only [hgo, Except.map_error]
            intro hcontra
            cases hcontra
            exact mergeSecDefs_go_notVersion cur rs _ t hgo
  · rw [if_neg hc]
    simp

theorem rewriteRefVal_err (v : JValue) (references : RenameTable) (e : MergeError)
    (h : rewriteRefVal v references = .error e) : e = .typeError := by
  rw [rewriteRefVal] at h
  cases hf : findRefSeg (jsToString v) with
  | none =>
      simp only [hf] at h
      exact Except.noConfusion h
  | some seg =>
      simp only [hf] at h
      cases hl : lookupRef references seg with
      | none =>
          simp only [hl] at h
          exact Except.noConfusion h
      | some new =>
          simp only [hl] at h
          cases v with
          | str s => exact Except.noConfusion h
          | null => cases h; rfl
          | bool b => cases h; rfl
          | num n => cases h; rfl
          | arr xs => cases h; rfl
          | obj fs => cases h; rfl

mutual
theorem updateReferences_err : ∀ (v : JValue) (references : RenameTable) (e : MergeError),
    updateReferences v references = .error e → e = .typeError
  | .null, references, e, h => by
      simp only [updateReferences] at h
      by_cases hc : references.isEmpty
      · simp only [if_pos hc] at h
        exact Except.noConfusion h
      · simp only [if_neg hc] at h
        exact Except.noConfusion h
  | .bool b, references, e, h => by
      simp only [updateReferences] at h
      by_cases hc : references.isEmpty
      · simp only [if_pos hc] at h
        exact Except.noConfusion h
      · simp only [if_neg hc] at h
        exact Except.noConfusion h
  | .num n, references, e, h => by
      simp only [updateReferences] at h
      by_cases hc : references.isEmpty
      · simp only [if_pos hc] at h
        exact Except.noConfusion h
      · simp only [if_neg hc] at h
        exact Except.noConfusion h
  | .str s, references, e, h => by
      simp only [updateReferences] at h
      by_cases hc : references.isEmpty
      · simp only [if_pos hc] at h
        exact Except.noConfusion h
      · simp only [if_neg hc] at h
        exact Except.noConfusion h
  | .arr xs, references, e, h => by
      rw [updateReferences] at h
      by_cases hc : references.isEmpty
      · simp only [if_pos hc] at h
        exact Except.noConfusion h
      · simp only [if_neg hc] at h
        cases ha : updateReferencesArr xs references with
        | error e2 =>
            simp only [ha] at h
            cases h
            exact updateReferencesArr_err xs references _ ha
        | ok ys =>
            simp only [ha] at h
            exact Except.noConfusion h
  | .obj fs, references, e, h => by
      rw [updateReferences] at h
      by_cases hc : references.isEmpty
      · simp only [if_pos hc] at h
        exact Except.noConfusion h
      · simp only [if_neg hc] at h
        cases ha : updateReferencesFields fs references with
        | error e2 =>
            simp only [ha] at h
            cases h
            exact updateReferencesFields_err fs references _ ha
        | ok gs =>
            simp only [ha] at h
            exact Except.noConfusion h
theorem updateReferencesArr_err : ∀ (xs : JArr) (references : RenameTable) (e : MergeError),
    updateReferencesArr xs references = .error e → e = .typeError
  | .nil, references, e, h => by
      rw [updateReferencesArr] at h
      exact Except.noConfusion h
  | .cons v tl, references, e, h => by
      rw [updateReferencesArr] at h
      cases hv : updateReferences v references with
      | error e2 =>
          simp only [hv] at h
          cases h
          exact updateReferences_err v references _ hv
      | ok w =>
          simp only [hv] at h
          cases ht : updateReferencesArr tl references with
          | error e2 =>
              simp only [ht] at h
              cases h
              exact updateReferencesArr_err tl references _ ht
          | ok ws =>
              simp only [ht] at h
              exact Except.noConfusion h
theorem updateReferencesFields_err : ∀ (fs : JObj) (references : RenameTable) (e : MergeError),
    updateReferencesFields fs references = .error e → e = .typeError
  | .nil, references, e, h => by
      rw [updateReferencesFields] at h
      exact Except.noConfusion h
  | .cons k v tl, references, e, h => by
      rw [updateReferencesFields] at h
      by_cases hk : k = refKey
      · simp only [if_pos hk] at h
        cases hv : rewriteRefVal v references with
        | error e2 =>
            simp only [hv] at h
            cases h
            exact rewriteRefVal_err v references _ hv
        | ok w =>
            simp only [hv] at h
            cases ht : updateReferencesFields tl references with
            | error e2 =>
                simp only [ht] at h
                cases h
                exact updateReferencesFields_err tl references _ ht
            | ok ws =>
                simp only [ht] at h
                exact Except.noConfusion h
      · simp only [if_neg hk] at h
        cases hv : updateReferences v references with
        | error e2 =>
            simp only [hv] at h
            cases h
            exact updateReferences_err v references _ hv
        | ok w =>
            simp only [hv] at h
            cases ht : updateReferencesFields tl references with
            | error e2 =>
                simp only [ht] at h
                cases h
                exact updateReferencesFields_err tl references _ ht
            | ok ws =>
                simp only [ht] at h
                exact Except.noConfusion h
end

theorem updObjGo_err (references : RenameTable) :
    ∀ (m : List (Str × JValue)) (e : MergeError),
      updateReferencesObj.go references m = .error e → e = .typeError
  | [], e, h => by
      rw [updateReferencesObj.go] at h
      exact Except.noConfusion h
  | (k, v) :: t, e, h => by
      rw [updateReferencesObj.go] at h
      by_cases hk : k = refKey
      · simp only [if_pos hk] at h
        cases hv : rewriteRefVal v references with
        | error e2 =>
            simp only [hv] at h
            cases h
            exact rewriteRefVal_err v references _ hv
        | ok w =>
            simp only [hv] at h
            cases ht : updateReferencesObj.go references t with
            | error e2 =>
                simp only [ht] at h
                cases h
                exact updObjGo_err references t _ ht
            | ok ws =>
                simp only [ht] at h
                exact Except.noConfusion h
      · simp only [if_neg hk] at h
        cases hv : updateReferences v references with
        | error e2 =>
            simp only [hv] at h
            cases h
            exact updateReferences_err v references _ hv
        | ok w =>
            simp only [hv] at h
            cases ht : updateReferencesObj.go references t with
            | error e2 =>
                simp only [ht] at h
                cases h
                exact updObjGo_err references t _ ht
            | ok ws =>
                simp only [ht] at h
                exact Except.noConfusion h

theorem updateReferencesObj_err (m : List (Str × JValue)) (references : RenameTable)
    (e : MergeError) (h : updateReferencesObj m references = .error e) :
    e = .typeError := by
  rw [updateReferencesObj] at h
  by_cases hc : references.isEmpty
  · rw [if_pos hc] at h
    exact Except.noConfusion h
  · rw [if_neg hc] at h
    exact updObjGo_err references m e h

theorem updOptMap_err (o : Option (List (Str × JValue))) (references : RenameTable)
    (e : MergeError) (h : updOptMap o references = .error e) : e = .typeError := by
  cases o with
  | none =>
      rw [updOptMap] at h
      exact Except.noConfusion h
  | some m =>
      rw [updOptMap] at h
      cases hu : updateReferencesObj m references with
      | error e2 =>
          simp only [hu, exceptMap_error] at h
          cases h
          exact updateReferencesObj_err m references _ hu
      | ok out =>
          simp only [hu, exceptMap_ok] at h
          exact Except.noConfusion h

theorem updOptVal_err (o : Option JValue) (references : RenameTable)
    (e : MergeError) (h : updOptVal o references = .error e) : e = .typeError := by
  cases o with
  | none =>
      rw [updOptVal] at h
      exact Except.noConfusion h
  | some v =>
      rw [updOptVal] at h
      cases hu : updateReferences v references with
      | error e2 =>
          simp only [hu, exceptMap_error] at h
          cases h
          exact updateReferences_err v references _ hu
      | ok w =>
          simp only [hu, exceptMap_ok] at h
          exact Except.noConfusion h

theorem updateReferencesDoc_err (s : SwaggerSpec) (references : RenameTable)
    (e : MergeError) (h : updateReferencesDoc s references = .error e) :
    e = .typeError := by
  rw [updateReferencesDoc] at h
  by_cases hc : references.isEmpty
  · rw [if_pos hc] at h
    exact Except.noConfusion h
  · rw [if_neg hc] at h
    cases h1 : updOptMap s.securityDefinitions references with
    | error e1 =>
        simp only [h1] at h
        cases h
        exact updOptMap_err _ references _ h1
    | ok sd =>
    simp only [h1] at h
    cases h2 : updOptVal s.security references with
    | error e1 =>
        simp only [h2] at h
        cases h
        exact updOptVal_err _ references _ h2
    | ok sec =>
    simp only [h2] at h
    cases h3 : updateReferencesObj s.paths references with
    | error e1 =>
        simp only [h3] at h
        cases h
        exact updateReferencesObj_err _ references _ h3
    | ok ps =>
    simp only [h3] at h
    cases h4 : updOptMap s.definitions references with
    | error e1 =>
        simp only [h4] at h
        cases h
        exact updOptMap_err _ references _ h4
    | ok ds =>
    simp only [h4] at h
    exact Except.noConfusion h

theorem mergeDefinitions_notVersion (l r : SwaggerSpec) (t : Str) :
    mergeDefinitions l r ≠ .error (.versionMismatch t) := by
  rw [mergeDefinitions]
  cases hs : r.definitions with
  | none =>
      intro hcontra
      exact Except.noConfusion hcontra
  | some rdefs => exact mergeDefs_go_notVersion r rdefs _ [] t

theorem stepDefs_notVersion (acc cur : SwaggerSpec) (t : Str) :
    stepDefs acc cur ≠ .error (.versionMismatch t) := by
  rw [stepDefs]
  by_cases hc : cur.definitions.isSome = true
  · rw [if_pos hc]
    cases hmd : mergeDefinitions acc cur with
    | error e =>
        simp only [hmd]
        intro hcontra
        cases hcontra
        exact mergeDefinitions_notVersion acc cur t hmd
    | ok md =>
        simp only [hmd]
        cases hup : updateReferencesObj md.1 md.2 with
        | error e =>
            simp only [hup]
            intro hcontra
            cases hcontra
            exact MergeError.noConfusion (updateReferencesObj_err md.1 md.2 _ hup)
        | ok ds =>
            simp only [hup]
            intro hcontra
            exact Except.noConfusion hcontra
  · rw [if_neg hc]
    simp

theorem mergePaths_notVersion (l r : SwaggerSpec) (t : Str) :
    mergePaths l r ≠ .error (.versionMismatch t) :=
  mergePaths_go_notVersion r r.paths l.paths t

/-- C6: in one fold step, a declared 2.x version on the accumulator together
with a missing or different 2.x version on the candidate yields a version
mismatch error naming the candidate's title; symmetrically for the 3.x
`openapi` field; and an accumulator declaring neither version field never
produces a version mismatch, whatever the candidate declares. -/
theorem claimC6 (acc cur : SwaggerSpec) :
    (acc.swagger.isSome ∧ (cur.swagger.isNone ∨ acc.swagger ≠ cur.swagger) →
      mergeStep acc cur = .error (.versionMismatch cur.info.title)) ∧
    (acc.openapi.isSome ∧ (cur.openapi.isNone ∨ acc.openapi ≠ cur.openapi) →
      mergeStep acc cur = .error (.versionMismatch cur.info.title)) ∧
    (acc.swagger = none → acc.openapi = none →
      ∀ t, mergeStep acc cur ≠ .error (.versionMismatch t)) := by
  refine ⟨?_, ?_, ?_⟩
  · intro h
    have hv : versionCheck acc cur = some (.versionMismatch cur.info.title) := by
      rw [versionCheck, if_pos h]
    rw [mergeStep]
    simp only [hv]
  · intro h
    have hv : versionCheck acc cur = some (.versionMismatch cur.info.title) := by
      rw [versionCheck]
      by_cases h1 : acc.swagger.isSome ∧ (cur.swagger.isNone ∨ acc.swagger ≠ cur.swagger)
      · rw [if_pos h1]
      · rw [if_neg h1, if_pos h]
    rw [mergeStep]
    simp only [hv]
  · intro hs ho t hcontra
    have hv : versionCheck acc cur = none := by
      rw [versionCheck, if_neg (by simp [hs]), if_neg (by simp [ho])]
    rw [mergeStep] at hcontra
    simp only [hv] at hcontra
    cases h2 : stepSecDefs (stepTags acc cur) cur with
    | error e =>
        simp only [h2] at hcontra
        cases hcontra
        exact stepSecDefs_notVersion (stepTags acc cur) cur t h2
    | ok acc2 =>
        simp only [h2] at hcontra
        cases h3 : stepDefs acc2 cur with
        | error e =>
            simp only [h3] at hcontra
            cases hcontra
            exact stepDefs_notVersion acc2 cur t h3
        | ok md =>
            simp only [h3] at hcontra
            cases h4 : updateReferencesDoc cur md.2 with
            | error e =>
                simp only [h4] at hcontra
                cases hcontra
                exact MergeError.noConfusion (updateReferencesDoc_err cur md.2 _ h4)
            | ok cur2 =>
                simp only [h4] at hcontra
                cases h5 : mergePaths md.1 cur2 with
                | error e =>
                    simp only [h5] at hcontra
                    cases hcontra
                    exact mergePaths_notVersion md.1 cur2 t h5
                | ok ps =>
                    simp only [h5] at hcontra
                    exact Except.noConfusion hcontra

/-- Accumulator of the first C6 witness: declares `swagger: "2.0"`. -/
def c6A : SwaggerSpec := { info := ⟨"a".toList⟩, swagger := some "2.0".toList, paths := [] }

/-- Candidate of the first and third C6 witnesses: declares no version. -/
def c6B : SwaggerSpec := { info := ⟨"b".toList⟩, paths := [] }

/-- Accumulator of the second C6 witness: declares `openapi: "3.0.0"`. -/
def c6C : SwaggerSpec := { info := ⟨"c".toList⟩, openapi := some "3.0.0".toList, paths := [] }

/-- Candidate of the second C6 witness: declares `openapi: "3.1.0"`. -/
def c6D : SwaggerSpec := { info := ⟨"d".toList⟩, openapi := some "3.1.0".toList, paths := [] }

/-- Accumulator of the third C6 witness: declares neither version field. -/
def c6E : SwaggerSpec := { info := ⟨"e".toList⟩, paths := [] }

/-- Witness for C6 at three concrete fold steps, one per conjunct. -/
theorem claimC6_witness :
    mergeStep c6A c6B = .error (.versionMismatch c6B.info.title) ∧
    mergeStep c6C c6D = .error (.versionMismatch c6D.info.title) ∧
    mergeStep c6E c6B ≠ .error (.versionMismatch "b".toList) :=
  ⟨(claimC6 c6A c6B).1 (by decide),
   (claimC6 c6C c6D).2.1 (by decide),
   (claimC6 c6E c6B).2.2 (by decide) (by decide) ("b".toList)⟩

/-! ### Claim C7 -/

/-- Modelled from claim C7's words: one step of the security-definition
merger — add an absent scheme, keep a structurally equal existing one
unchanged, and fail with a duplicate-security-definition error naming the
scheme and the right document's title on a structurally different one. -/
def specSecStep (right : SwaggerSpec) (acc : List (Str × JValue))
    (e : Str × JValue) : Except MergeError (List (Str × JValue)) :=
  match getVal acc e.1 with
  | none => .ok (acc ++ [e])
  | some existing =>
      if existing = e.2 then .ok acc
      else .error (.duplicateSecurityDefinition e.1 right.info.title)

/-- Modelled from claim C7's words: the security-definition merger folds the
step over the right document's scheme names, starting from the left
document's map (or the empty map). -/
def specSecFold (right : SwaggerSpec) (acc : List (Str × JValue)) :
    List (Str × JValue) → Except MergeError (List (Str × JValue))
  | [] => .ok acc
  | e :: t =>
      match specSecStep right acc e with
      | .ok acc2 => specSecFold right acc2 t
      | .error err => .error err

/-- Modelled from the corrected claim C7: the same processing step, with the
duplicate test being Node's legacy loose `deepEqual` instead of structural
equality. -/
def specSecStepJS (right : SwaggerSpec) (acc : List (Str × JValue))
    (e : Str × JValue) : Except MergeError (List (Str × JValue)) :=
  match getVal acc e.1 with
  | none => .ok (acc ++ [e])
  | some existing =>
      if deepEqual existing e.2 then .ok acc
      else .error (.duplicateSecurityDefinition e.1 right.info.title)

/-- Left-to-right processing of the right document's schemes with
`specSecStepJS`. -/
def specSecFoldJS (right : SwaggerSpec) (acc : List (Str × JValue)) :
    List (Str × JValue) → Except MergeError (List (Str × JValue))
  | [] => .ok acc
  | e :: t =>
      match specSecStepJS right acc e with
      | .ok acc2 => specSecFoldJS right acc2 t
      | .error err => .error err

theorem mergeSecDefs_go_eq_specFoldJS (right : SwaggerSpec) :
    ∀ (rs acc : List (Str × JValue)),
      mergeSecurityDefinitions.go right acc rs = specSecFoldJS right acc rs
  | [], _ => rfl
  | (n, v) :: t, acc => by
      rw [mergeSecurityDefinitions.go, specSecFoldJS]
      cases hg : getVal acc n with
      | some existing =>
          have hstep : specSecStepJS right acc (n, v) =
              if deepEqual existing v then .ok acc
              else .error (.duplicateSecurityDefinition n right.info.title) := by
            simp [specSecStepJS, hg]
          simp only [hg, hstep]
          by_cases he : deepEqual existing v = true
          · rw [if_pos he, if_pos he]
            exact mergeSecDefs_go_eq_specFoldJS right t acc
          · rw [if_neg he, if_neg he]
      | none =>
          have hstep : specSecStepJS right acc (n, v) = .ok (acc ++ [(n, v)]) := by
            simp [specSecStepJS, hg]
          simp only [hg, hstep]
          exact mergeSecDefs_go_eq_specFoldJS right t _

/-- The left input of the C7 counterexample: one scheme `{A: {v: 1}}`. -/
def c7L : SwaggerSpec :=
  { info := ⟨"l".toList⟩, paths := [],
    securityDefinitions := some [("A".toList, .obj (.cons "v".toList (.num 1) .nil))] }

/-- The right input of the C7 counterexample: `{A: {v: "1"}}`, structurally
different from the left scheme but loosely deep-equal (`1 == "1"`). -/
def c7R : SwaggerSpec :=
  { info := ⟨"r".toList⟩, paths := [],
    securityDefinitions := some
      [("A".toList, .obj (.cons "v".toList (.str "1".toList) .nil))] }

/-- C7 as stated is false on the code: the duplicate test is Node's legacy
`assert.deepEqual`, which compares primitives with `==`, so the structurally
different collision `{v: 1}` / `{v: "1"}` is kept silently, while the
claim's structural-equality fold raises a duplicate-security-definition
error. -/
theorem claimC7_counterexample :
    mergeSecurityDefinitions c7L c7R =
      .ok [("A".toList, .obj (.cons "v".toList (.num 1) .nil))] ∧
    specSecFold c7R (c7L.securityDefinitions.getD [])
        (c7R.securityDefinitions.getD []) =
      .error (.duplicateSecurityDefinition "A".toList "r".toList) ∧
    mergeSecurityDefinitions c7L c7R ≠
      specSecFold c7R (c7L.securityDefinitions.getD [])
        (c7R.securityDefinitions.getD []) :=
  ⟨by decide, by decide, by decide⟩

/-- C7 (amended): `mergeSecurityDefinitions` starts from the left document's
security-definition map (or the empty map) and processes each right-hand
scheme like claim C7 describes, except that the duplicate test is Node's
legacy loose `assert.deepEqual`: absent schemes are appended, loosely
deep-equal collisions are kept unchanged without error, and collisions that
are not loosely deep-equal fail with a duplicate-security-definition error
naming the scheme and the right document's title. -/
theorem claimC7_amended (left right : SwaggerSpec) :
    mergeSecurityDefinitions left right =
      specSecFoldJS right (left.securityDefinitions.getD [])
        (right.securityDefinitions.getD []) := by
  rw [mergeSecurityDefinitions]
  cases hs : right.securityDefinitions with
  | none => rfl
  | some rs => exact mergeSecDefs_go_eq_specFoldJS right rs _

/-! ### Claim C8 -/

/-- C10: on success, each of the three map mergers preserves every left-hand
binding under its original key — left entries are never removed, renamed or
overwritten; the mergers only append entries for the right document's
contributions. -/
theorem claimC10 (left right : SwaggerSpec) :
    (∀ out, mergeSecurityDefinitions left right = .ok out →
      ∀ k v, getVal (left.securityDefinitions.getD []) k = some v →
        getVal out k = some v) ∧
    (∀ out tbl, mergeDefinitions left right = .ok (out, tbl) →
      ∀ k v, getVal (left.definitions.getD []) k = some v →
        getVal out k = some v) ∧
    (∀ out, mergePaths left right = .ok out →
      ∀ k v, getVal left.paths k = some v → getVal out k = some v) := by
  refine ⟨?_, ?_, ?_⟩
  · intro out h
    exact mergeSecurityDefinitions_preserve left right out h
  · intro out tbl h k v hk
    rw [mergeDefinitions] at h
    cases hs : right.definitions with
    | none =>
        simp only [hs] at h
        cases h
        exact hk
    | some rdefs =>
        simp only [hs] at h
        exact mergeDefs_go_preserve right rdefs _ [] out tbl h k v hk
  · intro out h
    exact mergePaths_go_preserve right right.paths left.paths out h

/-- Left document of the C10 witness: one entry in each of the three maps. -/
def c10L : SwaggerSpec :=
  { info := ⟨"l".toList⟩,
    securityDefinitions := some [("basic".toList, JValue.obj .nil)],
    definitions := some [("Foo".toList, JValue.obj .nil)],
    paths := [("/p".toList, JValue.obj .nil)] }

/-- Right document of the C10 witness. -/
def c10R : SwaggerSpec := { info := ⟨"r".toList⟩, paths := [] }

/-- Witness for C10 at a concrete pair of documents: each left entry
survives in the corresponding merged map. -/
theorem claimC10_witness :
    getVal [("basic".toList, JValue.obj .nil)] "basic".toList =
        some (JValue.obj .nil) ∧
    getVal [("Foo".toList, JValue.obj .nil)] "Foo".toList =
        some (JValue.obj .nil) ∧
    getVal [("/p".toList, JValue.obj .nil)] "/p".toList =
        some (JValue.obj .nil) :=
  ⟨(claimC10 c10L c10R).1 [("basic".toList, JValue.obj .nil)] (by decide)
      "basic".toList (JValue.obj .nil) (by decide),
   (claimC10 c10L c10R).2.1 [("Foo".toList, JValue.obj .nil)] [] (by decide)
      "Foo".toList (JValue.obj .nil) (by decide),
   (claimC10 c10L c10R).2.2 [("/p".toList, JValue.obj .nil)] (by decide)
      "/p".toList (JValue.obj .nil) (by decide)⟩

/-! ### Claim C9 -/

/-- C9: applying the reference rewriter with an empty rename table succeeds
and is the identity on every nested value. -/
theorem claimC9 (v : JValue) : updateReferences v [] = .ok v := by
  cases v <;> rfl

end Swinger
